import Mathlib

set_option maxRecDepth 100000

/-!
Ledger-asset chaincode (fabcar): embedding and verification.

The chaincode (`chaincode/fabcar/go/main.go`) keeps `Car` records in the world
state of a ledger.  It has three operations, `InitLedger`, `CreateCar` and
`QueryAllCars`, and relies on two collaborators that live outside the file:

* Go's `encoding/json` (`json.Marshal`, `json.Unmarshal`) for the record codec;
* the transaction stub (`PutState`, `SetEvent`, `GetStateByRange`).

`encoding/json` is part of Go's standard library.  It is embedded here at the
type `Car`, a struct of five strings, after its sources: the scanner of
scanner.go state by state, `appendString` of encode.go, and of decode.go
`unquoteBytes`, `getu4` and the handling of object members and literals.  The
stub is embedded from the contract the specification gives for it.

What decoding accepts is stated against a grammar of its own: `rfc.Text` is
the JSON grammar of RFC 8259 and `rfc.Spells` the spelling of a field name in a
key; the decoder is proved to agree with both.

Go strings and byte slices are sequences of bytes; a byte is a natural number
below 256.  A Go `error` is a value of `GoError`; the nil error is `none`.
Loops that advance by more than one byte at a time (`i += size`) are written
with a counter of the bytes still to be stepped over, so that they recurse on
the tail of their input.  Logging is not part of the embedding.
-/

/-- A Go `string` or `[]byte`: a sequence of bytes. -/
abbrev Bytes := List Nat

/-- The bytes of an ASCII string literal of the source. -/
def ascii (s : String) : Bytes := s.data.map Char.toNat

/-- The `Car` struct of the source: five string fields. -/
structure Car where
  AssetID : Bytes
  Make : Bytes
  Model : Bytes
  Color : Bytes
  Owner : Bytes
deriving DecidableEq, Repr

/-! ## `unicode/utf8` -/

namespace utf8

/-- The replacement rune U+FFFD. -/
def RuneError : Nat := 0xFFFD

/-- Bytes below `RuneSelf` are single-byte runes. -/
def RuneSelf : Nat := 0x80

/-- The largest Unicode code point. -/
def MaxRune : Nat := 0x10FFFF

/-- The `first` table joined with `acceptRanges`: for a leading byte, the
length of the sequence it starts and the range accepted for the second byte.
Length 1 is the ASCII entry `as`, length 0 the invalid entry `xx`. -/
def first (b : Nat) : Nat × Nat × Nat :=
  if b < 0x80 then (1, 0, 0)
  else if b < 0xC2 then (0, 0, 0)
  else if b < 0xE0 then (2, 0x80, 0xBF)
  else if b = 0xE0 then (3, 0xA0, 0xBF)
  else if b < 0xED then (3, 0x80, 0xBF)
  else if b = 0xED then (3, 0x80, 0x9F)
  else if b < 0xF0 then (3, 0x80, 0xBF)
  else if b = 0xF0 then (4, 0x90, 0xBF)
  else if b < 0xF4 then (4, 0x80, 0xBF)
  else if b = 0xF4 then (4, 0x80, 0x8F)
  else (0, 0, 0)

/-- Go's `utf8.DecodeRune`: the first rune of `p` and its width in bytes;
`(RuneError, 1)` for an invalid encoding, `(RuneError, 0)` for empty input. -/
def DecodeRune (p : Bytes) : Nat × Nat :=
  match p with
  | [] => (RuneError, 0)
  | p0 :: t =>
    let x := first p0
    if x.1 = 1 then (p0, 1)
    else if x.1 = 0 then (RuneError, 1)
    else
      match t with
      | [] => (RuneError, 1)
      | b1 :: t1 =>
        if p.length < x.1 then (RuneError, 1)
        else if b1 < x.2.1 ∨ x.2.2 < b1 then (RuneError, 1)
        else if x.1 ≤ 2 then ((p0 % 32) * 64 + b1 % 64, 2)
        else
          match t1 with
          | [] => (RuneError, 1)
          | b2 :: t2 =>
            if b2 < 0x80 ∨ 0xBF < b2 then (RuneError, 1)
            else if x.1 ≤ 3 then ((p0 % 16) * 4096 + (b1 % 64) * 64 + b2 % 64, 3)
            else
              match t2 with
              | [] => (RuneError, 1)
              | b3 :: _ =>
                if b3 < 0x80 ∨ 0xBF < b3 then (RuneError, 1)
                else ((p0 % 8) * 262144 + (b1 % 64) * 4096 + (b2 % 64) * 64 + b3 % 64, 4)

/-- Go's `utf8.EncodeRune`: the UTF-8 encoding of a rune; surrogates and
values above `MaxRune` are encoded as `RuneError`. -/
def EncodeRune (r : Nat) : Bytes :=
  if r ≤ 0x7F then [r]
  else if r ≤ 0x7FF then [0xC0 + r / 64, 0x80 + r % 64]
  else if r > MaxRune ∨ (0xD800 ≤ r ∧ r ≤ 0xDFFF) then [0xEF, 0xBF, 0xBD]
  else if r ≤ 0xFFFF then [0xE0 + r / 4096, 0x80 + (r / 64) % 64, 0x80 + r % 64]
  else [0xF0 + r / 262144, 0x80 + (r / 4096) % 64, 0x80 + (r / 64) % 64, 0x80 + r % 64]

/-- The loop of `utf8.ValidString`.  The first argument counts the bytes of
the current rune that are still to be stepped over (`i += size`). -/
def validLoop : Nat → Bytes → Bool
  | _, [] => true
  | skip + 1, _ :: rest => validLoop skip rest
  | 0, b :: rest =>
    if b < RuneSelf then validLoop 0 rest
    else if (DecodeRune (b :: rest)).1 = RuneError ∧ (DecodeRune (b :: rest)).2 = 1 then false
    else validLoop ((DecodeRune (b :: rest)).2 - 1) rest

/-- Go's `utf8.ValidString`: the bytes consist entirely of valid UTF-8
encoded runes. -/
def ValidString (s : Bytes) : Bool := validLoop 0 s

end utf8

/-! ## Errors -/

/-- The error values of `encoding/json` that `Unmarshal` into a `Car` can
return.  Their message texts and offsets are not modelled. -/
inductive JsonError where
  | SyntaxError
  | UnmarshalTypeError
deriving DecidableEq, Repr

/-- A Go `error` value as this program sees or builds it. -/
inductive GoError where
  /-- an error returned by the transaction stub, with its message text -/
  | stub (text : String)
  /-- an error returned by `encoding/json` -/
  | json (e : JsonError)
  /-- `fmt.Errorf(format, cause)` for a format that ends in `%v`; `lead` is the
  format without the verb -/
  | Errorf (lead : String) (cause : GoError)
deriving DecidableEq, Repr

/-- The text of `err.Error()`.  The text of an `encoding/json` error is not
modelled and is supplied by `jsonText`. -/
def GoError.Error (jsonText : JsonError → String) : GoError → String
  | .stub text => text
  | .json e => jsonText e
  | .Errorf lead cause => lead ++ cause.Error jsonText

/-! ## `encoding/json`: encoding -/

namespace json

/-- The digits used for `\u00XX` escapes. -/
def hex : Bytes := ascii "0123456789abcdef"

/-- Go's `htmlSafeSet`: the ASCII bytes that `Marshal` copies unescaped.  All
of 0x20..0x7F except the double quote, the backslash and the HTML characters
ampersand, less-than and greater-than. -/
def htmlSafeSet (b : Nat) : Bool :=
  decide (0x20 ≤ b) && decide (b < 0x80) && !(b = 0x22 || b = 0x26 || b = 0x3C || b = 0x3E || b = 0x5C)

/-- What `appendString` writes for an ASCII byte that is not in `htmlSafeSet`
(the `switch b` of encode.go, as of Go 1.22; older versions write the
backspace and the form feed as `\u0008` and `\u000c`, which decode to the same
bytes). -/
def escapeByte (b : Nat) : Bytes :=
  if b = 0x5C ∨ b = 0x22 then [0x5C, b]
  else if b = 0x08 then [0x5C, 0x62]
  else if b = 0x0C then [0x5C, 0x66]
  else if b = 0x0A then [0x5C, 0x6E]
  else if b = 0x0D then [0x5C, 0x72]
  else if b = 0x09 then [0x5C, 0x74]
  else [0x5C, 0x75, 0x30, 0x30, hex.getD (b / 16) 0, hex.getD (b % 16) 0]

/-- The loop of `appendString` (encode.go) with `escapeHTML` set, as `Marshal`
sets it.  The first argument counts the bytes of the current rune still to be
stepped over (`i += size`); what the loop writes for a rune is produced at the
rune's first byte. -/
def appendStringLoop : Nat → Bytes → Bytes
  | _, [] => []
  | skip + 1, _ :: rest => appendStringLoop skip rest
  | 0, b :: rest =>
    if b < utf8.RuneSelf then
      (if htmlSafeSet b then [b] else escapeByte b) ++ appendStringLoop 0 rest
    else if (utf8.DecodeRune (b :: rest)).1 = utf8.RuneError ∧ (utf8.DecodeRune (b :: rest)).2 = 1 then
      ascii "\\ufffd" ++ appendStringLoop 0 rest
    else if (utf8.DecodeRune (b :: rest)).1 = 0x2028 ∨ (utf8.DecodeRune (b :: rest)).1 = 0x2029 then
      ascii "\\u202" ++ [hex.getD ((utf8.DecodeRune (b :: rest)).1 % 16) 0]
        ++ appendStringLoop ((utf8.DecodeRune (b :: rest)).2 - 1) rest
    else
      (b :: rest).take (utf8.DecodeRune (b :: rest)).2
        ++ appendStringLoop ((utf8.DecodeRune (b :: rest)).2 - 1) rest

/-- Go's `appendString`: a JSON string literal for `src`, quotes included. -/
def appendString (src : Bytes) : Bytes := 0x22 :: (appendStringLoop 0 src ++ [0x22])

/-- The text `json.Marshal` produces for a `Car`: the five fields in
declaration order under the names of their `json:"..."` tags. -/
def marshalCar (car : Car) : Bytes :=
  ascii "\x7b\"assetID\":" ++ appendString car.AssetID
    ++ ascii ",\"make\":" ++ appendString car.Make
    ++ ascii ",\"model\":" ++ appendString car.Model
    ++ ascii ",\"color\":" ++ appendString car.Color
    ++ ascii ",\"owner\":" ++ appendString car.Owner
    ++ ascii "\x7d"

/-- Go's `json.Marshal` at type `Car`.  Encoding a struct of strings cannot
fail, so the error result is always nil. -/
def Marshal (car : Car) : Bytes × Option GoError := (marshalCar car, none)

end json

/-! ## `encoding/json`: the scanner (scanner.go) -/

namespace json

/-- The op codes a scanner step returns. -/
inductive Op where
  | scanContinue | scanBeginLiteral | scanBeginObject | scanObjectKey | scanObjectValue
  | scanEndObject | scanBeginArray | scanArrayValue | scanEndArray | scanSkipSpace
  | scanEnd | scanError
deriving DecidableEq, Repr

/-- The entries of the scanner's parse stack. -/
inductive ParseState where
  | parseObjectKey | parseObjectValue | parseArrayValue
deriving DecidableEq, Repr

/-- The state functions of scanner.go, as the values the field `step` takes. -/
inductive Step where
  | stateBeginValueOrEmpty | stateBeginValue | stateBeginStringOrEmpty | stateBeginString
  | stateEndValue | stateEndTop
  | stateInString | stateInStringEsc
  | stateInStringEscU | stateInStringEscU1 | stateInStringEscU12 | stateInStringEscU123
  | stateNeg | state1 | state0 | stateDot | stateDot0 | stateE | stateESign | stateE0
  | stateT | stateTr | stateTru | stateF | stateFa | stateFal | stateFals
  | stateN | stateNu | stateNul
  | stateError
deriving DecidableEq, Repr

/-- The JSON scanner: the current state function, whether the top-level value
is complete, the parse stack (innermost entry first) and whether an error was
recorded. -/
structure scanner where
  step : Step
  endTop : Bool
  parseState : List ParseState
  err : Bool
deriving DecidableEq, Repr

/-- The nesting limit of the scanner. -/
def maxNestingDepth : Nat := 10000

/-- The scanner after `reset`. -/
def scanner.reset : scanner := ⟨.stateBeginValue, false, [], false⟩

/-- Record a syntax error: `s.error(c, context)`. -/
def scanner.error (s : scanner) : scanner × Op :=
  ({ s with step := .stateError, err := true }, .scanError)

/-- Push on the parse stack, failing beyond `maxNestingDepth`. -/
def scanner.pushParseState (s : scanner) (newParseState : ParseState) (successState : Op) :
    scanner × Op :=
  if (newParseState :: s.parseState).length ≤ maxNestingDepth then
    ({ s with parseState := newParseState :: s.parseState }, successState)
  else scanner.error { s with parseState := newParseState :: s.parseState }

/-- Pop the parse stack and select the state that follows a value. -/
def scanner.popParseState (s : scanner) : scanner :=
  if s.parseState.tail.length = 0 then
    { s with parseState := s.parseState.tail, step := .stateEndTop, endTop := true }
  else { s with parseState := s.parseState.tail, step := .stateEndValue }

/-- JSON white space. -/
def isSpace (c : Nat) : Bool := decide (c ≤ 0x20) && (c = 0x20 || c = 0x09 || c = 0x0D || c = 0x0A)

/-- The byte is an ASCII decimal digit. -/
def isDigit (c : Nat) : Bool := decide (0x30 ≤ c) && decide (c ≤ 0x39)

/-- The byte is an ASCII hexadecimal digit. -/
def isHex (c : Nat) : Bool :=
  isDigit c || (decide (0x61 ≤ c) && decide (c ≤ 0x66)) || (decide (0x41 ≤ c) && decide (c ≤ 0x46))

/-- State after the top-level value: only white space may follow. -/
def stateEndTop (s : scanner) (c : Nat) : scanner × Op :=
  if !isSpace c then ((scanner.error s).1, .scanEnd) else (s, .scanEnd)

/-- State after a value: a separator or the end of the enclosing container. -/
def stateEndValue (s : scanner) (c : Nat) : scanner × Op :=
  match s.parseState with
  | [] => stateEndTop { s with step := .stateEndTop, endTop := true } c
  | ps :: rest =>
    if isSpace c then ({ s with step := .stateEndValue }, .scanSkipSpace)
    else
      match ps with
      | .parseObjectKey =>
        if c = 0x3A then
          ({ s with parseState := .parseObjectValue :: rest, step := .stateBeginValue }, .scanObjectKey)
        else scanner.error s
      | .parseObjectValue =>
        if c = 0x2C then
          ({ s with parseState := .parseObjectKey :: rest, step := .stateBeginString }, .scanObjectValue)
        else if c = 0x7D then (scanner.popParseState s, .scanEndObject)
        else scanner.error s
      | .parseArrayValue =>
        if c = 0x2C then ({ s with step := .stateBeginValue }, .scanArrayValue)
        else if c = 0x5D then (scanner.popParseState s, .scanEndArray)
        else scanner.error s

/-- State at the beginning of a value. -/
def stateBeginValue (s : scanner) (c : Nat) : scanner × Op :=
  if isSpace c then (s, .scanSkipSpace)
  else if c = 0x7B then
    scanner.pushParseState { s with step := .stateBeginStringOrEmpty } .parseObjectKey .scanBeginObject
  else if c = 0x5B then
    scanner.pushParseState { s with step := .stateBeginValueOrEmpty } .parseArrayValue .scanBeginArray
  else if c = 0x22 then ({ s with step := .stateInString }, .scanBeginLiteral)
  else if c = 0x2D then ({ s with step := .stateNeg }, .scanBeginLiteral)
  else if c = 0x30 then ({ s with step := .state0 }, .scanBeginLiteral)
  else if c = 0x74 then ({ s with step := .stateT }, .scanBeginLiteral)
  else if c = 0x66 then ({ s with step := .stateF }, .scanBeginLiteral)
  else if c = 0x6E then ({ s with step := .stateN }, .scanBeginLiteral)
  else if 0x31 ≤ c ∧ c ≤ 0x39 then ({ s with step := .state1 }, .scanBeginLiteral)
  else scanner.error s

/-- State after `[`: a value or the closing bracket. -/
def stateBeginValueOrEmpty (s : scanner) (c : Nat) : scanner × Op :=
  if isSpace c then (s, .scanSkipSpace)
  else if c = 0x5D then stateEndValue s c
  else stateBeginValue s c

/-- State after a comma in an object: a key must follow. -/
def stateBeginString (s : scanner) (c : Nat) : scanner × Op :=
  if isSpace c then (s, .scanSkipSpace)
  else if c = 0x22 then ({ s with step := .stateInString }, .scanBeginLiteral)
  else scanner.error s

/-- State after `{`: a key or the closing brace. -/
def stateBeginStringOrEmpty (s : scanner) (c : Nat) : scanner × Op :=
  if isSpace c then (s, .scanSkipSpace)
  else if c = 0x7D then
    stateEndValue { s with parseState := .parseObjectValue :: s.parseState.tail } c
  else stateBeginString s c

/-- State inside a string literal. -/
def stateInString (s : scanner) (c : Nat) : scanner × Op :=
  if c = 0x22 then ({ s with step := .stateEndValue }, .scanContinue)
  else if c = 0x5C then ({ s with step := .stateInStringEsc }, .scanContinue)
  else if c < 0x20 then scanner.error s
  else (s, .scanContinue)

/-- State after a backslash in a string literal. -/
def stateInStringEsc (s : scanner) (c : Nat) : scanner × Op :=
  if c = 0x62 ∨ c = 0x66 ∨ c = 0x6E ∨ c = 0x72 ∨ c = 0x74 ∨ c = 0x5C ∨ c = 0x2F ∨ c = 0x22 then
    ({ s with step := .stateInString }, .scanContinue)
  else if c = 0x75 then ({ s with step := .stateInStringEscU }, .scanContinue)
  else scanner.error s

/-- The four states that read the hexadecimal digits of a `\u` escape: a
digit moves on to `next`. -/
def stateInStringEscHex (next : Step) (s : scanner) (c : Nat) : scanner × Op :=
  if isHex c then ({ s with step := next }, .scanContinue) else scanner.error s

/-- State after the digit 0 of a number, and the tail of `state1`. -/
def state0 (s : scanner) (c : Nat) : scanner × Op :=
  if c = 0x2E then ({ s with step := .stateDot }, .scanContinue)
  else if c = 0x65 ∨ c = 0x45 then ({ s with step := .stateE }, .scanContinue)
  else stateEndValue s c

/-- State after a nonzero leading digit of a number. -/
def state1 (s : scanner) (c : Nat) : scanner × Op :=
  if isDigit c then ({ s with step := .state1 }, .scanContinue) else state0 s c

/-- State after the minus sign of a number. -/
def stateNeg (s : scanner) (c : Nat) : scanner × Op :=
  if c = 0x30 then ({ s with step := .state0 }, .scanContinue)
  else if 0x31 ≤ c ∧ c ≤ 0x39 then ({ s with step := .state1 }, .scanContinue)
  else scanner.error s

/-- State after the decimal point of a number. -/
def stateDot (s : scanner) (c : Nat) : scanner × Op :=
  if isDigit c then ({ s with step := .stateDot0 }, .scanContinue) else scanner.error s

/-- State in the fraction digits of a number. -/
def stateDot0 (s : scanner) (c : Nat) : scanner × Op :=
  if isDigit c then (s, .scanContinue)
  else if c = 0x65 ∨ c = 0x45 then ({ s with step := .stateE }, .scanContinue)
  else stateEndValue s c

/-- State after the sign of an exponent. -/
def stateESign (s : scanner) (c : Nat) : scanner × Op :=
  if isDigit c then ({ s with step := .stateE0 }, .scanContinue) else scanner.error s

/-- State after the `e` of an exponent. -/
def stateE (s : scanner) (c : Nat) : scanner × Op :=
  if c = 0x2B ∨ c = 0x2D then ({ s with step := .stateESign }, .scanContinue)
  else stateESign s c

/-- State in the digits of an exponent. -/
def stateE0 (s : scanner) (c : Nat) : scanner × Op :=
  if isDigit c then (s, .scanContinue) else stateEndValue s c

/-- The states inside the literals `true`, `false` and `null`: the byte
`expect` moves on to `next`. -/
def stateLit (expect : Nat) (next : Step) (s : scanner) (c : Nat) : scanner × Op :=
  if c = expect then ({ s with step := next }, .scanContinue) else scanner.error s

/-- One scanner step, `s.step(s, c)`: run the current state function on the
byte `c`. -/
def scanner.next (s : scanner) (c : Nat) : scanner × Op :=
  match s.step with
  | .stateBeginValueOrEmpty => stateBeginValueOrEmpty s c
  | .stateBeginValue => stateBeginValue s c
  | .stateBeginStringOrEmpty => stateBeginStringOrEmpty s c
  | .stateBeginString => stateBeginString s c
  | .stateEndValue => stateEndValue s c
  | .stateEndTop => stateEndTop s c
  | .stateInString => stateInString s c
  | .stateInStringEsc => stateInStringEsc s c
  | .stateInStringEscU => stateInStringEscHex .stateInStringEscU1 s c
  | .stateInStringEscU1 => stateInStringEscHex .stateInStringEscU12 s c
  | .stateInStringEscU12 => stateInStringEscHex .stateInStringEscU123 s c
  | .stateInStringEscU123 => stateInStringEscHex .stateInString s c
  | .stateNeg => stateNeg s c
  | .state1 => state1 s c
  | .state0 => state0 s c
  | .stateDot => stateDot s c
  | .stateDot0 => stateDot0 s c
  | .stateE => stateE s c
  | .stateESign => stateESign s c
  | .stateE0 => stateE0 s c
  | .stateT => stateLit 0x72 .stateTr s c
  | .stateTr => stateLit 0x75 .stateTru s c
  | .stateTru => stateLit 0x65 .stateEndValue s c
  | .stateF => stateLit 0x61 .stateFa s c
  | .stateFa => stateLit 0x6C .stateFal s c
  | .stateFal => stateLit 0x73 .stateFals s c
  | .stateFals => stateLit 0x65 .stateEndValue s c
  | .stateN => stateLit 0x75 .stateNu s c
  | .stateNu => stateLit 0x6C .stateNul s c
  | .stateNul => stateLit 0x6C .stateEndValue s c
  | .stateError => (s, .scanError)

/-- The end of input, `s.eof()`: true when the input held one complete
value and no error was recorded. -/
def scanner.eof (s : scanner) : Bool :=
  if s.err then false
  else if s.endTop then true
  else (s.next 0x20).1.endTop

/-- Go's `checkValid`: the data is one syntactically valid JSON value.  A
step that reports `scanError` leaves the scanner in `stateError` with the error
recorded, so running on to the end of the data gives the same verdict as
stopping at the first error. -/
def checkValid (data : Bytes) : Bool :=
  (data.foldl (fun s c => (s.next c).1) scanner.reset).eof

end json

/-! ## `encoding/json`: decoding into a `Car` (decode.go) -/

namespace utf16

/-- Go's `utf16.IsSurrogate`. -/
def IsSurrogate (r : Nat) : Bool := decide (0xD800 ≤ r) && decide (r < 0xE000)

/-- Go's `utf16.DecodeRune`: the code point of a surrogate pair, or U+FFFD
when the two values are not a valid pair.  A second value that could not be
read, -1 in Go, is `none`. -/
def DecodeRune (r1 : Nat) (r2 : Option Nat) : Nat :=
  match r2 with
  | none => 0xFFFD
  | some r2 =>
    if 0xD800 ≤ r1 ∧ r1 < 0xDC00 ∧ 0xDC00 ≤ r2 ∧ r2 < 0xE000 then
      (r1 - 0xD800) * 1024 + (r2 - 0xDC00) + 0x10000
    else 0xFFFD

end utf16

namespace json

/-- The value of a hexadecimal digit, as in the loop of `getu4`. -/
def hexVal (c : Nat) : Option Nat :=
  if 0x30 ≤ c ∧ c ≤ 0x39 then some (c - 0x30)
  else if 0x61 ≤ c ∧ c ≤ 0x66 then some (c - 0x61 + 10)
  else if 0x41 ≤ c ∧ c ≤ 0x46 then some (c - 0x41 + 10)
  else none

/-- Go's `getu4`: the value of a `\uXXXX` escape at the start of `s`, or
`none` (-1 in Go) when `s` does not start with one. -/
def getu4 (s : Bytes) : Option Nat :=
  match s with
  | b :: u :: c1 :: c2 :: c3 :: c4 :: _ =>
    if b = 0x5C ∧ u = 0x75 then
      match hexVal c1, hexVal c2, hexVal c3, hexVal c4 with
      | some h1, some h2, some h3, some h4 => some (((h1 * 16 + h2) * 16 + h3) * 16 + h4)
      | _, _, _, _ => none
    else none
  | _ => none

/-- What the main loop of `unquoteBytes` writes for a backslash escape other
than `\u`, given the byte after the backslash; `none` for an invalid escape. -/
def unescapeByte (e : Nat) : Option Nat :=
  if e = 0x22 ∨ e = 0x5C ∨ e = 0x2F ∨ e = 0x27 then some e
  else if e = 0x62 then some 0x08
  else if e = 0x66 then some 0x0C
  else if e = 0x6E then some 0x0A
  else if e = 0x72 then some 0x0D
  else if e = 0x74 then some 0x09
  else none

/-- The main loop of `unquoteBytes` over the bytes between the quotes of a
string literal.  The first argument counts the bytes already consumed by the
current escape or rune (`r += ...`).  The copying fast path that precedes the
loop in decode.go gives the same bytes as this loop and is not separate here. -/
def unquoteLoop : Nat → Bytes → Option Bytes
  | _, [] => some []
  | skip + 1, _ :: rest => unquoteLoop skip rest
  | 0, c :: rest =>
    if c = 0x5C then
      match rest with
      | [] => none
      | e :: _ =>
        if e = 0x75 then
          match getu4 (c :: rest) with
          | none => none
          | some rr =>
            if utf16.IsSurrogate rr then
              if utf16.DecodeRune rr (getu4 (rest.drop 5)) ≠ 0xFFFD then
                (unquoteLoop 11 rest).map
                  (fun t => utf8.EncodeRune (utf16.DecodeRune rr (getu4 (rest.drop 5))) ++ t)
              else (unquoteLoop 5 rest).map (fun t => utf8.EncodeRune 0xFFFD ++ t)
            else (unquoteLoop 5 rest).map (fun t => utf8.EncodeRune rr ++ t)
        else
          match unescapeByte e with
          | none => none
          | some b => (unquoteLoop 1 rest).map (fun t => b :: t)
    else if c = 0x22 ∨ c < 0x20 then none
    else if c < utf8.RuneSelf then (unquoteLoop 0 rest).map (fun t => c :: t)
    else
      (unquoteLoop ((utf8.DecodeRune (c :: rest)).2 - 1) rest).map
        (fun t => utf8.EncodeRune (utf8.DecodeRune (c :: rest)).1 ++ t)

/-- Go's `unquoteBytes` on a string literal given by the bytes between its
quotes: the string the literal denotes, coerced to valid UTF-8. -/
def unquoteBytes (body : Bytes) : Option Bytes := unquoteLoop 0 body

/-- The loop of Go's `foldName` as far as it matters for names made of ASCII
letters: ASCII letters are upper-cased, and the only two runes outside ASCII
that fold to an ASCII letter, U+212A (Kelvin sign, to K) and U+017F (long s, to
S), are mapped to it.  Other bytes are left in place; the fold of a rune outside
ASCII is never an ASCII letter, so such a key equals no folded field name either
way.  The first argument counts the bytes of the current rune still to be
stepped over. -/
def foldLoop : Nat → Bytes → Bytes
  | _, [] => []
  | skip + 1, _ :: rest => foldLoop skip rest
  | 0, c :: rest =>
    if c = 0xE2 ∧ rest.take 2 = [0x84, 0xAA] then 0x4B :: foldLoop 2 rest
    else if c = 0xC5 ∧ rest.take 1 = [0xBF] then 0x53 :: foldLoop 1 rest
    else (if 0x61 ≤ c ∧ c ≤ 0x7A then c - 0x20 else c) :: foldLoop 0 rest

/-- Go's `foldName`, see `foldLoop`. -/
def foldName (name : Bytes) : Bytes := foldLoop 0 name

/-- The JSON names of the fields of `Car`, from the struct tags, in declaration
order. -/
def fieldNames : List Bytes :=
  [ascii "assetID", ascii "make", ascii "model", ascii "color", ascii "owner"]

/-- The field a key of the input selects (decode.go, `d.object`): the field
whose name is the key, byte for byte, or else the field whose name equals the
key under `foldName`. -/
def findField (key : Bytes) : Option Nat :=
  match fieldNames.indexOf? key with
  | some i => some i
  | none => (fieldNames.map foldName).indexOf? (foldName key)

/-- Assign to the field with the given index (`v.SetString`). -/
def setField (car : Car) (i : Nat) (v : Bytes) : Car :=
  match i with
  | 0 => { car with AssetID := v }
  | 1 => { car with Make := v }
  | 2 => { car with Model := v }
  | 3 => { car with Color := v }
  | _ => { car with Owner := v }

/-- The kinds of JSON value, told apart by their first byte as `d.value` and
`d.literalStore` do. -/
inductive Kind where
  | object | array | string | number | bool | null
deriving DecidableEq, Repr

/-- The kind of the value that begins with the byte `c`. -/
def kindOf (c : Nat) : Kind :=
  if c = 0x7B then .object
  else if c = 0x5B then .array
  else if c = 0x22 then .string
  else if c = 0x6E then .null
  else if c = 0x74 ∨ c = 0x66 then .bool
  else .number

/-- A member of the top-level object as `d.object` reads it: the bytes between
the quotes of the key, the kind of the value and, for a string, the bytes
between its quotes. -/
structure Member where
  key : Bytes
  kind : Kind
  body : Bytes
deriving DecidableEq, Repr

/-- Where the decoder is within a member of the top-level object. -/
inductive Cursor where
  | idle
  | inKey (acc : Bytes)
  | afterKey (key : Bytes)
  | inValue (key : Bytes) (acc : Bytes)
deriving DecidableEq, Repr

/-- The decoder's walk over the data: its scanner, the kind of the top-level
value, the position within the current member of the top-level object and
the members read so far, in input order. -/
structure decodeState where
  scan : scanner
  top : Option Kind
  cur : Cursor
  members : List Member
deriving DecidableEq, Repr

/-- The decoder before the first byte (`d.init`, `d.scan.reset`). -/
def decodeState.init : decodeState := ⟨scanner.reset, none, .idle, []⟩

/-- Advance the decoder by one byte.  The scanner steps as in `checkValid`; the
op code and the nesting depth before the byte tell what the byte is.  At depth
0 a value begins (`d.value`).  At depth 1 of an object (`d.object`) the opening
quote of a literal begins a key, the bytes up to its closing quote are the key,
and after the colon the next value is recorded: a string literal
(`d.literalStore`) with the bytes up to its closing quote, anything else by its
kind (its bytes are stepped over as by `d.skip`).  Deeper bytes belong to such
a value. -/
def decodeState.feed (d : decodeState) (c : Nat) : decodeState :=
  match d.scan.parseState.length, d.top with
  | 0, _ =>
    match (d.scan.next c).2 with
    | .scanBeginObject | .scanBeginArray | .scanBeginLiteral =>
      { d with scan := (d.scan.next c).1, top := some (kindOf c) }
    | _ => { d with scan := (d.scan.next c).1 }
  | 1, some .object =>
    match d.cur with
    | .idle =>
      if (d.scan.next c).2 = .scanBeginLiteral ∧ c = 0x22 then
        { d with scan := (d.scan.next c).1, cur := .inKey [] }
      else { d with scan := (d.scan.next c).1 }
    | .inKey acc =>
      if d.scan.step = .stateInString ∧ c = 0x22 then
        { d with scan := (d.scan.next c).1, cur := .afterKey acc }
      else { d with scan := (d.scan.next c).1, cur := .inKey (acc ++ [c]) }
    | .afterKey key =>
      match (d.scan.next c).2 with
      | .scanBeginLiteral =>
        if c = 0x22 then { d with scan := (d.scan.next c).1, cur := .inValue key [] }
        else
          { d with scan := (d.scan.next c).1, cur := .idle,
                   members := d.members ++ [⟨key, kindOf c, []⟩] }
      | .scanBeginObject | .scanBeginArray =>
        { d with scan := (d.scan.next c).1, cur := .idle,
                 members := d.members ++ [⟨key, kindOf c, []⟩] }
      | _ => { d with scan := (d.scan.next c).1 }
    | .inValue key acc =>
      if d.scan.step = .stateInString ∧ c = 0x22 then
        { d with scan := (d.scan.next c).1, cur := .idle,
                 members := d.members ++ [⟨key, .string, acc⟩] }
      else { d with scan := (d.scan.next c).1, cur := .inValue key (acc ++ [c]) }
  | _, _ => { d with scan := (d.scan.next c).1 }

/-- The decoder after the whole data. -/
def decodeState.run (data : Bytes) : decodeState := data.foldl decodeState.feed decodeState.init

/-- Store one member of the top-level object into the `Car` (the loop body of
`d.object` with `d.literalStore`).  A key that selects no field is passed over.
For a selected field a string is assigned, `null` leaves the field as it is,
and a value of any other kind records an `UnmarshalTypeError` (the first one is
kept, `d.saveError`) and decoding goes on.  Where `unquoteBytes` fails Go
panics; here the member is passed over.  That case does not arise on data that
passed `checkValid` (theorem `json.unquote_members`). -/
def storeMember (acc : Car × Option GoError) (m : Member) : Car × Option GoError :=
  match unquoteBytes m.key with
  | none => acc
  | some key =>
    match findField key with
    | none => acc
    | some i =>
      match m.kind with
      | .string =>
        match unquoteBytes m.body with
        | none => acc
        | some v => (setField acc.1 i v, acc.2)
      | .null => acc
      | _ =>
        match acc.2 with
        | none => (acc.1, some (.json .UnmarshalTypeError))
        | some _ => acc

/-- Go's `json.Unmarshal(data, &car)`: the `Car` afterwards and the error.
Data that is not valid JSON gives a `SyntaxError` and leaves the `Car` alone.
A top-level object is stored member by member, a top-level `null` changes
nothing, and any other top-level value is an `UnmarshalTypeError`.  Valid data
always has a top-level value (theorem `json.top_of_valid`). -/
def Unmarshal (data : Bytes) (car : Car) : Car × Option GoError :=
  if checkValid data then
    match (decodeState.run data).top with
    | some .object => (decodeState.run data).members.foldl storeMember (car, none)
    | some .null => (car, none)
    | _ => (car, some (.json .UnmarshalTypeError))
  else (car, some (.json .SyntaxError))

end json

/-! ## The transaction stub and the world state -/

/-- A call made on the transaction stub. -/
inductive Call where
  | PutState (key : Bytes) (value : Bytes)
  | SetEvent (name : Bytes) (payload : Bytes)
  | GetStateByRange (startKey : Bytes) (endKey : Bytes)
deriving DecidableEq, Repr

/-- Modelled from the spec: the ledger behind the stub (section 4.2, the
LedgerStore adapter), which is outside the repository.  `state` is the world
state, the entries (key, value) in the order a range scan yields them.  `calls`
records every call made on the stub so far, oldest first, with whether it
succeeded; the events emitted are the successful `SetEvent` calls. -/
structure World where
  state : List (Bytes × Bytes)
  calls : List (Call × Bool)
deriving DecidableEq, Repr

/-- Modelled from the spec: when the ledger fails (section 4.2 `WriteError`,
`EmitError`; section 7 `PersistenceError`).  Each field answers, for the world
at the time of the call and the arguments of the call, with the text of the
error the call returns, or `none` when it succeeds.  `range` is the opening of
a range scan, `next` the fetching of the entry with the given index of an open
scan. -/
structure Faults where
  put : World → Bytes → Bytes → Option String
  event : World → Bytes → Bytes → Option String
  range : World → Option String
  next : World → Nat → Option String

/-- The order of keys: lexicographic by bytes. -/
def keyLt : Bytes → Bytes → Bool
  | [], [] => false
  | [], _ :: _ => true
  | _ :: _, [] => false
  | a :: x, b :: y => if a < b then true else if b < a then false else keyLt x y

/-- Write `value` under `key` in a list of entries kept in ascending key
order: an entry with that key is replaced, otherwise the new entry is inserted
at its place. -/
def upsert (key value : Bytes) : List (Bytes × Bytes) → List (Bytes × Bytes)
  | [] => [(key, value)]
  | (k, v) :: rest =>
    if k = key then (key, value) :: rest
    else if keyLt key k then (key, value) :: (k, v) :: rest
    else (k, v) :: upsert key value rest

/-- The value of the first entry with the given key, if any. -/
def getValue (key : Bytes) : List (Bytes × Bytes) → Option Bytes
  | [] => none
  | (k, v) :: rest => if k = key then some v else getValue key rest

/-- The value stored under a key, if any. -/
def World.get (w : World) (key : Bytes) : Option Bytes := getValue key w.state

/-- The world after a successful `PutState(key, value)`. -/
def World.put (w : World) (key value : Bytes) : World :=
  { state := upsert key value w.state, calls := w.calls ++ [(.PutState key value, true)] }

/-- Modelled from the spec: `PutState` of the stub, "upserts value for key;
overwrites silently if key exists", or fails and leaves the world state as it
was. -/
def PutState (f : Faults) (w : World) (key value : Bytes) : World × Option GoError :=
  match f.put w key value with
  | some text => ({ w with calls := w.calls ++ [(.PutState key value, false)] }, some (.stub text))
  | none => (w.put key value, none)

/-- Modelled from the spec: `SetEvent` of the stub, the `Emit` of section 4.2;
it does not touch the world state. -/
def SetEvent (f : Faults) (w : World) (name payload : Bytes) : World × Option GoError :=
  match f.event w name payload with
  | some text => ({ w with calls := w.calls ++ [(.SetEvent name payload, false)] }, some (.stub text))
  | none => ({ w with calls := w.calls ++ [(.SetEvent name payload, true)] }, none)

/-- Modelled from the spec: `GetStateByRange` of the stub, the `RangeScan` of
section 4.2: the entries with `startKey ≤ key < endKey` in the order of the
world state, an empty bound being no bound; or the error of a scan that does
not open.  The entries are what the iterator will yield. -/
def GetStateByRange (f : Faults) (w : World) (startKey endKey : Bytes) :
    World × List (Bytes × Bytes) × Option GoError :=
  match f.range w with
  | some text =>
    ({ w with calls := w.calls ++ [(.GetStateByRange startKey endKey, false)] }, [], some (.stub text))
  | none =>
    ({ w with calls := w.calls ++ [(.GetStateByRange startKey endKey, true)] },
      w.state.filter (fun e =>
        (startKey = [] || !keyLt e.1 startKey) && (endKey = [] || keyLt e.1 endKey)),
      none)

/-! ## The chaincode (main.go) -/

/-- The seed records of `InitLedger`. -/
def cars : List Car :=
  [ ⟨ascii "CAR0", ascii "Toyota", ascii "Prius", ascii "blue", ascii "Tomoko"⟩,
    ⟨ascii "CAR1", ascii "Ford", ascii "Mustang", ascii "red", ascii "Brad"⟩,
    ⟨ascii "CAR2", ascii "Hyundai", ascii "Tucson", ascii "green", ascii "Jin Soo"⟩,
    ⟨ascii "CAR3", ascii "Volkswagen", ascii "Passat", ascii "yellow", ascii "Max"⟩,
    ⟨ascii "CAR4", ascii "Tesla", ascii "Model S", ascii "black", ascii "Adriana"⟩,
    ⟨ascii "CAR5", ascii "Peugeot", ascii "208", ascii "purple", ascii "Michel"⟩ ]

/-- The loop `for _, car := range cars` of `InitLedger`: marshal, put, and
return at the first error. -/
def initLoop (f : Faults) : List Car → World → World × Option GoError
  | [], w => (w, none)
  | car :: rest, w =>
    match json.Marshal car with
    | (_, some err) => (w, some (.Errorf "failed to marshal car: " err))
    | (carAsBytes, none) =>
      match PutState f w car.AssetID carAsBytes with
      | (w1, some err) => (w1, some (.Errorf "failed to put car into world state: " err))
      | (w1, none) => initLoop f rest w1

/-- `InitLedger` of the source: the world afterwards and the error returned. -/
def InitLedger (f : Faults) (w : World) : World × Option GoError := initLoop f cars w

/-- `CreateCar` of the source: the world afterwards and the error returned. -/
def CreateCar (f : Faults) (w : World) (assetID make model color owner : Bytes) :
    World × Option GoError :=
  match json.Marshal ⟨assetID, make, model, color, owner⟩ with
  | (_, some err) => (w, some (.Errorf "failed to marshal car: " err))
  | (carAsBytes, none) =>
    match PutState f w assetID carAsBytes with
    | (w1, some err) => (w1, some (.Errorf "failed to put car into world state: " err))
    | (w1, none) =>
      match SetEvent f w1 (ascii "CarCreated") assetID with
      | (w2, some err) => (w2, some (.Errorf "failed to emit event: " err))
      | (w2, none) => (w2, none)

/-- The zero value of `Car`, as `var car Car` declares it. -/
def Car.zero : Car := ⟨[], [], [], [], []⟩

/-- The loop `for resultsIterator.HasNext()` of `QueryAllCars` over the entries
the iterator still holds; `i` is the index of the next entry and `found` the
records appended so far.  An error of `Next` or of `json.Unmarshal` returns
no records and the error. -/
def queryLoop (f : Faults) (w : World) : Nat → List (Bytes × Bytes) → List Car →
    List Car × Option GoError
  | _, [], found => (found, none)
  | i, queryResponse :: rest, found =>
    match f.next w i with
    | some text => ([], some (.Errorf "failed to iterate cars: " (.stub text)))
    | none =>
      match json.Unmarshal queryResponse.2 Car.zero with
      | (_, some err) => ([], some (.Errorf "failed to unmarshal car: " err))
      | (car, none) => queryLoop f w (i + 1) rest (found ++ [car])

/-- `QueryAllCars` of the source: the world afterwards, the records returned
(the nil slice is the empty list) and the error returned.  The deferred `Close`
of the iterator has no effect on either. -/
def QueryAllCars (f : Faults) (w : World) : World × List Car × Option GoError :=
  match GetStateByRange f w [] [] with
  | (w1, _, some err) => (w1, [], some (.Errorf "failed to get all cars: " err))
  | (w1, resultsIterator, none) => (w1, queryLoop f w1 0 resultsIterator [])

/-! ## Notions used in the statements and proofs -/

namespace utf8

/-- The bytes `chunk` are the UTF-8 encoding of the rune `r`, a rune outside
ASCII: `EncodeRune` writes them and `DecodeRune` reads them back, whatever
follows. -/
def IsRune (chunk : Bytes) (r : Nat) : Prop :=
  2 ≤ chunk.length ∧ (∀ x ∈ chunk, 0x80 ≤ x) ∧ EncodeRune r = chunk ∧
    ∀ X, DecodeRune (chunk ++ X) = (r, chunk.length)

end utf8

namespace json

/-- The bytes between the quotes of a string literal, built from the forms
`appendString` writes, and the string they denote. -/
inductive Quoted : Bytes → Bytes → Prop
  | nil : Quoted [] []
  | plain (b : Nat) (raw s : Bytes) : 0x20 ≤ b → b < 0x80 → b ≠ 0x22 → b ≠ 0x5C →
      Quoted raw s → Quoted (b :: raw) (b :: s)
  | esc (e b : Nat) (raw s : Bytes) :
      (e = 0x62 ∨ e = 0x66 ∨ e = 0x6E ∨ e = 0x72 ∨ e = 0x74 ∨ e = 0x5C ∨ e = 0x2F ∨ e = 0x22) →
      unescapeByte e = some b → Quoted raw s → Quoted (0x5C :: e :: raw) (b :: s)
  | uni (c1 c2 c3 c4 h1 h2 h3 h4 : Nat) (raw s : Bytes) :
      hexVal c1 = some h1 → hexVal c2 = some h2 → hexVal c3 = some h3 → hexVal c4 = some h4 →
      utf16.IsSurrogate (((h1 * 16 + h2) * 16 + h3) * 16 + h4) = false →
      Quoted raw s →
      Quoted (0x5C :: 0x75 :: c1 :: c2 :: c3 :: c4 :: raw)
        (utf8.EncodeRune (((h1 * 16 + h2) * 16 + h3) * 16 + h4) ++ s)
  | rune (chunk : Bytes) (r : Nat) (raw s : Bytes) : utf8.IsRune chunk r →
      Quoted raw s → Quoted (chunk ++ raw) (chunk ++ s)

/-- The decoder inside the string value of a member of the top-level object. -/
def inValue (key acc : Bytes) (ms : List Member) : decodeState :=
  ⟨⟨.stateInString, false, [.parseObjectValue], false⟩, some .object, .inValue key acc, ms⟩

/-- The decoder inside a key of the top-level object. -/
def inKey (acc : Bytes) (ms : List Member) : decodeState :=
  ⟨⟨.stateInString, false, [.parseObjectKey], false⟩, some .object, .inKey acc, ms⟩

end json

namespace json

/-- The scanner states inside a string literal. -/
def isStr (st : Step) : Bool :=
  match st with
  | .stateInString | .stateInStringEsc | .stateInStringEscU | .stateInStringEscU1
  | .stateInStringEscU12 | .stateInStringEscU123 => true
  | _ => false

/-- The scanner inside a string literal, on its own: the state after the byte
`c`, or `none` when `c` ends the literal or is an error there. -/
def strNext (st : Step) (c : Nat) : Option Step :=
  match st with
  | .stateInString =>
    if c = 0x22 then none else if c = 0x5C then some .stateInStringEsc
    else if c < 0x20 then none else some .stateInString
  | .stateInStringEsc =>
    if c = 0x62 ∨ c = 0x66 ∨ c = 0x6E ∨ c = 0x72 ∨ c = 0x74 ∨ c = 0x5C ∨ c = 0x2F ∨ c = 0x22 then
      some .stateInString
    else if c = 0x75 then some .stateInStringEscU else none
  | .stateInStringEscU => if isHex c then some .stateInStringEscU1 else none
  | .stateInStringEscU1 => if isHex c then some .stateInStringEscU12 else none
  | .stateInStringEscU12 => if isHex c then some .stateInStringEscU123 else none
  | .stateInStringEscU123 => if isHex c then some .stateInString else none
  | _ => none

/-- The scanner inside a string literal over a run of bytes. -/
def strRun : Step → Bytes → Option Step
  | st, [] => some st
  | st, c :: rest =>
    match strNext st c with
    | none => none
    | some st2 => strRun st2 rest

/-- The member was read from literals that `unquoteBytes` accepts. -/
def Member.Good (m : Member) : Prop :=
  (unquoteBytes m.key).isSome = true ∧ (m.kind = .string → (unquoteBytes m.body).isSome = true)

/-- What holds of the decoder as long as the scanner has recorded no error:
the members read so far are good, and the bytes collected for the current key
or string value are what took the scanner from the opening quote to its
current state. -/
def decodeState.Inv (d : decodeState) : Prop :=
  d.scan.err = true ∨
    ((∀ m ∈ d.members, m.Good) ∧
      match d.cur with
      | .idle => True
      | .inKey acc =>
        d.scan.parseState.length = 1 ∧ d.top = some .object ∧
          strRun .stateInString acc = some d.scan.step
      | .afterKey key => (unquoteBytes key).isSome = true
      | .inValue key acc =>
        (unquoteBytes key).isSome = true ∧ d.scan.parseState.length = 1 ∧ d.top = some .object ∧
          strRun .stateInString acc = some d.scan.step)

/-- The decoder has seen the first byte of the top-level value, or the scanner
has recorded an error, or the scanner is still before the top-level value. -/
def decodeState.Started (d : decodeState) : Prop :=
  d.top ≠ none ∨ d.scan.err = true ∨
    (d.scan.step = .stateBeginValue ∧ d.scan.parseState = [] ∧ d.scan.endTop = false)

end json

/-- The entry `(key, value)` is in the list and every entry before it has a
smaller key: a further `upsert` of the same entry finds it and changes
nothing. -/
def Settled (key value : Bytes) (l : List (Bytes × Bytes)) : Prop :=
  ∃ pre post, l = pre ++ (key, value) :: post ∧ ∀ e ∈ pre, keyLt e.1 key = true

/-- The entries are in strictly ascending key order. -/
def ascending (l : List (Bytes × Bytes)) : Prop := l.Pairwise (fun a b => keyLt a.1 b.1 = true)

/-- The world after the given records were put one after the other, each `Put`
succeeding. -/
def seeded (w : World) (cs : List Car) : World :=
  cs.foldl (fun w c => w.put c.AssetID (json.marshalCar c)) w

/-- The key and the decode error of the first entry whose value does not
decode, if there is one. -/
def firstDecodeError : List (Bytes × Bytes) → Option (Bytes × GoError)
  | [] => none
  | e :: rest =>
    match (json.Unmarshal e.2 Car.zero).2 with
    | some err => some (e.1, err)
    | none => firstDecodeError rest

namespace json

/-- The five fields are valid UTF-8. -/
def validCar (car : Car) : Prop :=
  utf8.ValidString car.AssetID = true ∧ utf8.ValidString car.Make = true ∧
    utf8.ValidString car.Model = true ∧ utf8.ValidString car.Color = true ∧
    utf8.ValidString car.Owner = true

end json

/-- The world with no entries and no calls made. -/
def World.empty : World := ⟨[], []⟩

/-- A ledger on which nothing fails. -/
def noFaults : Faults := ⟨fun _ _ _ => none, fun _ _ _ => none, fun _ => none, fun _ _ => none⟩

/-- A ledger on which writes and events succeed and no range scan opens. -/
def scanDown : Faults :=
  ⟨fun _ _ _ => none, fun _ _ _ => none, fun _ => some "ledger unavailable", fun _ _ => none⟩

/-- A ledger on which writes succeed and every event is rejected. -/
def eventDown : Faults :=
  ⟨fun _ _ _ => none, fun _ _ _ => some "event rejected", fun _ => none, fun _ _ => none⟩

/-- A ledger on which the write of one key is rejected. -/
def putDownOn (key : Bytes) : Faults :=
  ⟨fun _ k _ => if k = key then some "write rejected" else none, fun _ _ _ => none,
    fun _ => none, fun _ _ => none⟩

/-- A ledger that accepts a write only as the first call made on the stub and
rejects every later write. -/
def putOnce : Faults :=
  ⟨fun w _ _ => if w.calls = [] then none else some "write rejected", fun _ _ _ => none,
    fun _ => none, fun _ _ => none⟩

/-! ## The specification of decoding: the JSON grammar (RFC 8259) and the names of the fields -/

namespace rfc

/-- White space: a run of spaces, tabs, line feeds and carriage returns. -/
def Ws (w : Bytes) : Prop := ∀ c ∈ w, c = 0x20 ∨ c = 0x09 ∨ c = 0x0A ∨ c = 0x0D

/-- The names of the five fields of a record, in lower case. -/
def fieldNames : List Bytes :=
  [ascii "assetid", ascii "make", ascii "model", ascii "color", ascii "owner"]

end rfc

/-! ## Notions used in the proofs about the scanner -/

namespace json

/-- The scanner after the bytes `t`. -/
def scanner.run (s : scanner) (t : Bytes) : scanner := t.foldl (fun s c => (s.next c).1) s

/-- The bytes `t` take the scanner from `s` to `s2`, and each of them either
continues a literal, leaving the parse stack alone, or is read with more than
`b` entries on the parse stack. -/
def Inner (b : Nat) : scanner → Bytes → scanner → Prop
  | s, [], s2 => s = s2
  | s, c :: t, s2 =>
    (((s.next c).2 = .scanContinue ∧ (s.next c).1.parseState = s.parseState) ∨
        b < s.parseState.length) ∧
      Inner b (s.next c).1 t s2

end json

/-! # Theorems -/

/-! ## UTF-8 -/

namespace utf8

theorem first_cases (b : Nat) :
    (b < 0x80 ∧ first b = (1, 0, 0)) ∨ (0x80 ≤ b ∧ b < 0xC2 ∧ first b = (0, 0, 0)) ∨
    (0xC2 ≤ b ∧ b < 0xE0 ∧ first b = (2, 0x80, 0xBF)) ∨
    (b = 0xE0 ∧ first b = (3, 0xA0, 0xBF)) ∨
    (0xE1 ≤ b ∧ b < 0xF0 ∧ b ≠ 0xED ∧ first b = (3, 0x80, 0xBF)) ∨
    (b = 0xED ∧ first b = (3, 0x80, 0x9F)) ∨
    (b = 0xF0 ∧ first b = (4, 0x90, 0xBF)) ∨
    (0xF1 ≤ b ∧ b < 0xF4 ∧ first b = (4, 0x80, 0xBF)) ∨
    (b = 0xF4 ∧ first b = (4, 0x80, 0x8F)) ∨
    (0xF5 ≤ b ∧ first b = (0, 0, 0)) := by
  unfold first
  by_cases h1 : b < 0x80
  · left; exact ⟨h1, by rw [if_pos h1]⟩
  rw [if_neg h1]
  by_cases h2 : b < 0xC2
  · right; left; exact ⟨by omega, h2, by rw [if_pos h2]⟩
  rw [if_neg h2]
  by_cases h3 : b < 0xE0
  · right; right; left; exact ⟨by omega, h3, by rw [if_pos h3]⟩
  rw [if_neg h3]
  by_cases h4 : b = 0xE0
  · right; right; right; left; exact ⟨h4, by rw [if_pos h4]⟩
  rw [if_neg h4]
  by_cases h5 : b < 0xED
  · right; right; right; right; left; exact ⟨by omega, by omega, by omega, by rw [if_pos h5]⟩
  rw [if_neg h5]
  by_cases h6 : b = 0xED
  · right; right; right; right; right; left; exact ⟨h6, by rw [if_pos h6]⟩
  rw [if_neg h6]
  by_cases h7 : b < 0xF0
  · right; right; right; right; left; exact ⟨by omega, by omega, by omega, by rw [if_pos h7]⟩
  rw [if_neg h7]
  by_cases h8 : b = 0xF0
  · right; right; right; right; right; right; left; exact ⟨h8, by rw [if_pos h8]⟩
  rw [if_neg h8]
  by_cases h9 : b < 0xF4
  · right; right; right; right; right; right; right; left
    exact ⟨by omega, by omega, by rw [if_pos h9]⟩
  rw [if_neg h9]
  by_cases h10 : b = 0xF4
  · right; right; right; right; right; right; right; right; left
    exact ⟨h10, by rw [if_pos h10]⟩
  rw [if_neg h10]
  right; right; right; right; right; right; right; right; right
  exact ⟨by omega, rfl⟩

theorem isRune2 (b b1 : Nat) (hf : first b = (2, 0x80, 0xBF)) (h0 : 0xC2 ≤ b) (h1 : b < 0xE0)
    (h2 : 0x80 ≤ b1) (h3 : b1 ≤ 0xBF) :
    IsRune [b, b1] ((b % 32) * 64 + b1 % 64) := by
  refine ⟨by simp, ?_, ?_, ?_⟩
  · intro x hx
    simp at hx
    omega
  · unfold EncodeRune
    rw [if_neg (by omega), if_pos (by omega)]
    simp only [List.cons.injEq, and_true]
    omega
  · intro X
    simp only [DecodeRune, List.cons_append, List.nil_append, hf]
    simp
    rw [if_neg (by omega), if_neg (by omega)]

theorem isRune3 (b b1 b2 lo hi : Nat) (hf : first b = (3, lo, hi))
    (hb : 0xE0 ≤ b ∧ b < 0xF0 ∧ 0x80 ≤ lo ∧ hi ≤ 0xBF ∧ (b = 0xE0 → 0xA0 ≤ lo) ∧
      (b = 0xED → hi ≤ 0x9F))
    (h2 : lo ≤ b1) (h3 : b1 ≤ hi) (h4 : 0x80 ≤ b2) (h5 : b2 ≤ 0xBF) :
    IsRune [b, b1, b2] ((b % 16) * 4096 + (b1 % 64) * 64 + b2 % 64) := by
  refine ⟨by simp, ?_, ?_, ?_⟩
  · intro x hx
    simp at hx
    omega
  · unfold EncodeRune MaxRune
    rw [if_neg (by omega), if_neg (by omega), if_neg (by omega), if_pos (by omega)]
    simp only [List.cons.injEq, and_true]
    omega
  · intro X
    simp only [DecodeRune, List.cons_append, List.nil_append, hf]
    simp
    rw [if_neg (by omega), if_neg (by omega), if_neg (by omega)]

theorem isRune4 (b b1 b2 b3 lo hi : Nat) (hf : first b = (4, lo, hi))
    (hb : 0xF0 ≤ b ∧ b < 0xF5 ∧ 0x80 ≤ lo ∧ hi ≤ 0xBF ∧ (b = 0xF0 → 0x90 ≤ lo) ∧
      (b = 0xF4 → hi ≤ 0x8F))
    (h2 : lo ≤ b1) (h3 : b1 ≤ hi) (h4 : 0x80 ≤ b2) (h5 : b2 ≤ 0xBF) (h6 : 0x80 ≤ b3)
    (h7 : b3 ≤ 0xBF) :
    IsRune [b, b1, b2, b3] ((b % 8) * 262144 + (b1 % 64) * 4096 + (b2 % 64) * 64 + b3 % 64) := by
  refine ⟨by simp, ?_, ?_, ?_⟩
  · intro x hx
    simp at hx
    omega
  · unfold EncodeRune MaxRune
    rw [if_neg (by omega), if_neg (by omega), if_neg (by omega), if_neg (by omega)]
    simp only [List.cons.injEq, and_true]
    omega
  · intro X
    simp only [DecodeRune, List.cons_append, List.nil_append, hf]
    simp
    rw [if_neg (by omega), if_neg (by omega), if_neg (by omega), if_neg (by omega)]

theorem decodeRune_bad (b : Nat) (rest : Bytes) (hf : first b = (0, 0, 0)) :
    DecodeRune (b :: rest) = (RuneError, 1) := by
  simp [DecodeRune, hf]

/-- A byte sequence that starts with a byte outside ASCII and does not decode to
`(RuneError, 1)` starts with the encoding of the rune decoded. -/
theorem decodeRune_valid (b : Nat) (rest : Bytes)
    (h : ¬((DecodeRune (b :: rest)).1 = RuneError ∧ (DecodeRune (b :: rest)).2 = 1))
    (hb : ¬ b < RuneSelf) :
    ∃ chunk tail, b :: rest = chunk ++ tail ∧ IsRune chunk (DecodeRune (b :: rest)).1 ∧
      (DecodeRune (b :: rest)).2 = chunk.length := by
  unfold RuneSelf at hb
  have two : ∀ (hf : first b = (2, 0x80, 0xBF)) (h0 : 0xC2 ≤ b) (h1 : b < 0xE0),
      ∃ chunk tail, b :: rest = chunk ++ tail ∧ IsRune chunk (DecodeRune (b :: rest)).1 ∧
      (DecodeRune (b :: rest)).2 = chunk.length := by
    intro hf h0 h1
    rcases rest with _ | ⟨b1, t⟩
    · exfalso; apply h; simp [DecodeRune, hf]
    · by_cases hr : b1 < 0x80 ∨ 0xBF < b1
      · exfalso; apply h; simp [DecodeRune, hf, hr]
      · have hR := isRune2 b b1 hf h0 h1 (by omega) (by omega)
        have := hR.2.2.2 t
        simp only [List.cons_append, List.nil_append] at this
        exact ⟨[b, b1], t, by simp, by rw [this]; exact hR, by rw [this]⟩
  have three : ∀ (lo hi : Nat) (hf : first b = (3, lo, hi))
      (hb : 0xE0 ≤ b ∧ b < 0xF0 ∧ 0x80 ≤ lo ∧ hi ≤ 0xBF ∧ (b = 0xE0 → 0xA0 ≤ lo) ∧
        (b = 0xED → hi ≤ 0x9F)),
      ∃ chunk tail, b :: rest = chunk ++ tail ∧ IsRune chunk (DecodeRune (b :: rest)).1 ∧
      (DecodeRune (b :: rest)).2 = chunk.length := by
    intro lo hi hf hb
    rcases rest with _ | ⟨b1, _ | ⟨b2, t⟩⟩
    · exfalso; apply h; simp [DecodeRune, hf]
    · exfalso; apply h; simp [DecodeRune, hf]
    · by_cases hr : b1 < lo ∨ hi < b1
      · exfalso; apply h; simp [DecodeRune, hf, hr]
      · by_cases hr2 : b2 < 0x80 ∨ 0xBF < b2
        · exfalso; apply h; simp [DecodeRune, hf, hr, hr2]
        · have hR := isRune3 b b1 b2 lo hi hf hb (by omega) (by omega) (by omega) (by omega)
          have := hR.2.2.2 t
          simp only [List.cons_append, List.nil_append] at this
          exact ⟨[b, b1, b2], t, by simp, by rw [this]; exact hR, by rw [this]⟩
  have four : ∀ (lo hi : Nat) (hf : first b = (4, lo, hi))
      (hb : 0xF0 ≤ b ∧ b < 0xF5 ∧ 0x80 ≤ lo ∧ hi ≤ 0xBF ∧ (b = 0xF0 → 0x90 ≤ lo) ∧
        (b = 0xF4 → hi ≤ 0x8F)),
      ∃ chunk tail, b :: rest = chunk ++ tail ∧ IsRune chunk (DecodeRune (b :: rest)).1 ∧
      (DecodeRune (b :: rest)).2 = chunk.length := by
    intro lo hi hf hb
    rcases rest with _ | ⟨b1, _ | ⟨b2, _ | ⟨b3, t⟩⟩⟩
    · exfalso; apply h; simp [DecodeRune, hf]
    · exfalso; apply h; simp [DecodeRune, hf]
    · exfalso; apply h; simp [DecodeRune, hf]
    · by_cases hr : b1 < lo ∨ hi < b1
      · exfalso; apply h; simp [DecodeRune, hf, hr]
      · by_cases hr2 : b2 < 0x80 ∨ 0xBF < b2
        · exfalso; apply h; simp [DecodeRune, hf, hr, hr2]
        · by_cases hr3 : b3 < 0x80 ∨ 0xBF < b3
          · exfalso; apply h; simp [DecodeRune, hf, hr, hr2, hr3]
          · have hR := isRune4 b b1 b2 b3 lo hi hf hb (by omega) (by omega) (by omega) (by omega)
              (by omega) (by omega)
            have := hR.2.2.2 t
            simp only [List.cons_append, List.nil_append] at this
            exact ⟨[b, b1, b2, b3], t, by simp, by rw [this]; exact hR, by rw [this]⟩
  rcases first_cases b with ⟨h1, _⟩ | ⟨_, _, hf⟩ | ⟨h0, h1, hf⟩ | ⟨h0, hf⟩ | ⟨h0, h1, h2, hf⟩ |
    ⟨h0, hf⟩ | ⟨h0, hf⟩ | ⟨h0, h1, hf⟩ | ⟨h0, hf⟩ | ⟨_, hf⟩
  · exact absurd h1 hb
  · exact absurd (decodeRune_bad b rest hf) (fun e => h (by rw [e]; exact ⟨rfl, rfl⟩))
  · exact two hf h0 h1
  · exact three _ _ hf (by omega)
  · exact three _ _ hf (by omega)
  · exact three _ _ hf (by omega)
  · exact four _ _ hf (by omega)
  · exact four _ _ hf (by omega)
  · exact four _ _ hf (by omega)
  · exact absurd (decodeRune_bad b rest hf) (fun e => h (by rw [e]; exact ⟨rfl, rfl⟩))

end utf8

/-! ## String literals -/

namespace json

theorem unquoteLoop_skip (pre X : Bytes) : unquoteLoop pre.length (pre ++ X) = unquoteLoop 0 X := by
  induction pre with
  | nil => rfl
  | cons a pre ih => simpa [unquoteLoop] using ih

theorem appendStringLoop_skip (pre X : Bytes) :
    appendStringLoop pre.length (pre ++ X) = appendStringLoop 0 X := by
  induction pre with
  | nil => rfl
  | cons a pre ih => simpa [appendStringLoop] using ih

theorem hexVal_isHex (c h : Nat) (hc : hexVal c = some h) : isHex c = true := by
  unfold hexVal at hc
  unfold isHex isDigit
  by_cases h1 : 0x30 ≤ c ∧ c ≤ 0x39
  · simp [h1.1, h1.2]
  · rw [if_neg h1] at hc
    by_cases h2 : 0x61 ≤ c ∧ c ≤ 0x66
    · simp [h2.1, h2.2]
    · rw [if_neg h2] at hc
      by_cases h3 : 0x41 ≤ c ∧ c ≤ 0x46
      · simp [h3.1, h3.2]
      · rw [if_neg h3] at hc
        exact absurd hc (by simp)

theorem unquote_quoted (raw s : Bytes) (h : Quoted raw s) : unquoteLoop 0 raw = some s := by
  induction h with
  | nil => rfl
  | plain b raw s h1 h2 h3 h4 _ ih =>
    unfold unquoteLoop
    rw [if_neg h4, if_neg (by omega), if_pos (by unfold utf8.RuneSelf; omega), ih]
    rfl
  | esc e b raw s he hb _ ih =>
    have hne : e ≠ 0x75 := by omega
    unfold unquoteLoop
    simp only [if_true, if_neg hne, hb]
    unfold unquoteLoop
    rw [ih]
    rfl
  | uni c1 c2 c3 c4 h1 h2 h3 h4 raw s e1 e2 e3 e4 hs _ ih =>
    unfold unquoteLoop
    have hg : getu4 (0x5C :: 0x75 :: c1 :: c2 :: c3 :: c4 :: raw) =
        some (((h1 * 16 + h2) * 16 + h3) * 16 + h4) := by
      simp [getu4, e1, e2, e3, e4]
    simp only [if_true, hg, hs]
    have := unquoteLoop_skip [0x75, c1, c2, c3, c4] raw
    simp only [List.length_cons, List.length_nil, List.cons_append, List.nil_append] at this
    simp [this, ih]
  | rune chunk r raw s hr _ ih =>
    obtain ⟨hlen, hge, henc, hdec⟩ := hr
    rcases chunk with _ | ⟨c0, ct⟩
    · simp at hlen
    · have h0 : 0x80 ≤ c0 := hge c0 (by simp)
      have hd := hdec raw
      simp only [List.cons_append] at hd ⊢
      unfold unquoteLoop
      rw [if_neg (by omega), if_neg (by omega), if_neg (by unfold utf8.RuneSelf; omega), hd]
      simp only [List.length_cons, Nat.add_sub_cancel]
      rw [unquoteLoop_skip, ih, henc]
      rfl

end json

namespace utf8
theorem validLoop_skip (pre X : Bytes) : validLoop pre.length (pre ++ X) = validLoop 0 X := by
  induction pre with
  | nil => rfl
  | cons a pre ih => simpa [validLoop] using ih
end utf8

namespace json

theorem hexVal_hex (n : Nat) (h : n < 16) : hexVal (hex.getD n 0) = some n := by
  interval_cases n <;> rfl

theorem quoted_escapeByte (b : Nat) (raw s : Bytes) (h1 : b < 0x80) (h2 : htmlSafeSet b = false)
    (h : Quoted raw s) : Quoted (escapeByte b ++ raw) (b :: s) := by
  unfold escapeByte
  by_cases c1 : b = 0x5C ∨ b = 0x22
  · rw [if_pos c1]
    refine Quoted.esc b b raw s (by omega) ?_ h
    rcases c1 with c1 | c1 <;> subst c1 <;> rfl
  rw [if_neg c1]
  by_cases c2 : b = 0x08
  · rw [if_pos c2]; subst c2; exact Quoted.esc 0x62 _ raw s (by omega) rfl h
  rw [if_neg c2]
  by_cases c3 : b = 0x0C
  · rw [if_pos c3]; subst c3; exact Quoted.esc 0x66 _ raw s (by omega) rfl h
  rw [if_neg c3]
  by_cases c4 : b = 0x0A
  · rw [if_pos c4]; subst c4; exact Quoted.esc 0x6E _ raw s (by omega) rfl h
  rw [if_neg c4]
  by_cases c5 : b = 0x0D
  · rw [if_pos c5]; subst c5; exact Quoted.esc 0x72 _ raw s (by omega) rfl h
  rw [if_neg c5]
  by_cases c6 : b = 0x09
  · rw [if_pos c6]; subst c6; exact Quoted.esc 0x74 _ raw s (by omega) rfl h
  rw [if_neg c6]
  have hq := Quoted.uni 0x30 0x30 (hex.getD (b / 16) 0) (hex.getD (b % 16) 0) 0 0 (b / 16) (b % 16)
    raw s rfl rfl (hexVal_hex _ (by omega)) (hexVal_hex _ (by omega))
    (by simp [utf16.IsSurrogate]; omega) h
  have hb : ((0 * 16 + 0) * 16 + b / 16) * 16 + b % 16 = b := by omega
  rw [hb] at hq
  have he : utf8.EncodeRune b = [b] := by
    unfold utf8.EncodeRune
    rw [if_pos (by omega)]
  rw [he] at hq
  exact hq

theorem quoted_appendString_aux (n : Nat) : ∀ s : Bytes, s.length ≤ n →
    utf8.ValidString s = true → Quoted (appendStringLoop 0 s) s := by
  induction n with
  | zero =>
    intro s hs _
    have : s = [] := List.eq_nil_of_length_eq_zero (by omega)
    subst this
    exact Quoted.nil
  | succ n ih =>
    intro s hs hv
    rcases s with _ | ⟨b, rest⟩
    · exact Quoted.nil
    · unfold utf8.ValidString at hv
      unfold utf8.validLoop at hv
      unfold appendStringLoop
      simp only [List.length_cons] at hs
      by_cases hb : b < utf8.RuneSelf
      · rw [if_pos hb] at hv ⊢
        have hq := ih rest (by omega) hv
        by_cases hsafe : htmlSafeSet b = true
        · rw [if_pos hsafe]
          unfold htmlSafeSet at hsafe
          simp at hsafe
          exact Quoted.plain b _ _ (by omega) (by omega) (by omega) (by omega) hq
        · rw [if_neg hsafe]
          exact quoted_escapeByte b _ _ hb (by simpa using hsafe) hq
      · rw [if_neg hb] at hv ⊢
        by_cases hbad : (utf8.DecodeRune (b :: rest)).1 = utf8.RuneError ∧
            (utf8.DecodeRune (b :: rest)).2 = 1
        · rw [if_pos hbad] at hv
          exact absurd hv (by simp)
        · rw [if_neg hbad] at hv ⊢
          obtain ⟨chunk, tail, hsplit, hR, hlen⟩ := utf8.decodeRune_valid b rest hbad hb
          rcases chunk with _ | ⟨c0, ct⟩
          · exact absurd hR.1 (by simp)
          · simp only [List.cons_append, List.cons.injEq] at hsplit
            obtain ⟨hc0, hrest⟩ := hsplit
            subst hc0
            subst hrest
            rw [hlen] at hv ⊢
            simp only [List.length_cons, Nat.add_sub_cancel] at hv ⊢
            rw [utf8.validLoop_skip] at hv
            rw [appendStringLoop_skip]
            have hq := ih tail (by simp at hs; omega) hv
            by_cases hls : (utf8.DecodeRune (b :: (ct ++ tail))).1 = 0x2028 ∨
                (utf8.DecodeRune (b :: (ct ++ tail))).1 = 0x2029
            · rw [if_pos hls]
              have henc := hR.2.2.1
              rcases hls with hls | hls
              · rw [hls] at henc ⊢
                have := Quoted.uni 0x32 0x30 0x32 0x38 2 0 2 8 _ _ rfl rfl rfl rfl rfl hq
                rw [show ((2 * 16 + 0) * 16 + 2) * 16 + 8 = 0x2028 from rfl, henc] at this
                simpa using this
              · rw [hls] at henc ⊢
                have := Quoted.uni 0x32 0x30 0x32 0x39 2 0 2 9 _ _ rfl rfl rfl rfl rfl hq
                rw [show ((2 * 16 + 0) * 16 + 2) * 16 + 9 = 0x2029 from rfl, henc] at this
                simpa using this
            · rw [if_neg hls]
              have ht : List.take (ct.length + 1) (b :: (ct ++ tail)) = b :: ct := by
                simp
              rw [ht]
              have := Quoted.rune (b :: ct) _ _ _ hR hq
              simpa using this

theorem quoted_appendString (s : Bytes) (h : utf8.ValidString s = true) :
    Quoted (appendStringLoop 0 s) s :=
  quoted_appendString_aux s.length s (Nat.le_refl _) h

theorem unquote_appendString (s : Bytes) (h : utf8.ValidString s = true) :
    unquoteBytes (appendStringLoop 0 s) = some s :=
  unquote_quoted _ _ (quoted_appendString s h)

end json

/-! ## The decoder over what `Marshal` writes -/

namespace json

theorem feed_inValue (st : Step) (et er : Bool) (ps : ParseState) (key acc : Bytes)
    (ms : List Member) (c : Nat) (h : ¬(st = .stateInString ∧ c = 0x22)) :
    decodeState.feed ⟨⟨st, et, [ps], er⟩, some .object, .inValue key acc, ms⟩ c =
      ⟨(scanner.next ⟨st, et, [ps], er⟩ c).1, some .object, .inValue key (acc ++ [c]), ms⟩ := by
  simp only [decodeState.feed, List.length_singleton]
  rw [if_neg h]

theorem next_plain (et er : Bool) (pst : List ParseState) (c : Nat) (h1 : 0x20 ≤ c)
    (h2 : c ≠ 0x22) (h3 : c ≠ 0x5C) :
    (scanner.next ⟨.stateInString, et, pst, er⟩ c).1 = ⟨.stateInString, et, pst, er⟩ := by
  simp only [scanner.next, stateInString]
  rw [if_neg h2, if_neg h3, if_neg (by omega)]

theorem next_backslash (et er : Bool) (pst : List ParseState) :
    (scanner.next ⟨.stateInString, et, pst, er⟩ 0x5C).1 = ⟨.stateInStringEsc, et, pst, er⟩ := rfl

theorem next_esc (et er : Bool) (pst : List ParseState) (e : Nat)
    (he : e = 0x62 ∨ e = 0x66 ∨ e = 0x6E ∨ e = 0x72 ∨ e = 0x74 ∨ e = 0x5C ∨ e = 0x2F ∨ e = 0x22) :
    (scanner.next ⟨.stateInStringEsc, et, pst, er⟩ e).1 = ⟨.stateInString, et, pst, er⟩ := by
  simp only [scanner.next, stateInStringEsc]
  rw [if_pos he]

theorem next_escU (et er : Bool) (pst : List ParseState) :
    (scanner.next ⟨.stateInStringEsc, et, pst, er⟩ 0x75).1 = ⟨.stateInStringEscU, et, pst, er⟩ := rfl

theorem next_hex (st nx : Step) (et er : Bool) (pst : List ParseState) (c : Nat)
    (hc : isHex c = true)
    (hst : (st = .stateInStringEscU ∧ nx = .stateInStringEscU1) ∨
      (st = .stateInStringEscU1 ∧ nx = .stateInStringEscU12) ∨
      (st = .stateInStringEscU12 ∧ nx = .stateInStringEscU123) ∨
      (st = .stateInStringEscU123 ∧ nx = .stateInString)) :
    (scanner.next ⟨st, et, pst, er⟩ c).1 = ⟨nx, et, pst, er⟩ := by
  rcases hst with ⟨h1, h2⟩ | ⟨h1, h2⟩ | ⟨h1, h2⟩ | ⟨h1, h2⟩ <;> subst h1 <;> subst h2 <;>
    simp only [scanner.next, stateInStringEscHex, hc, if_true]

theorem feed_high (chunk : Bytes) (hge : ∀ x ∈ chunk, 0x80 ≤ x) (et er : Bool) (ps : ParseState)
    (key acc : Bytes) (ms : List Member) :
    chunk.foldl decodeState.feed
        ⟨⟨.stateInString, et, [ps], er⟩, some .object, .inValue key acc, ms⟩ =
      ⟨⟨.stateInString, et, [ps], er⟩, some .object, .inValue key (acc ++ chunk), ms⟩ := by
  induction chunk generalizing acc with
  | nil => simp
  | cons c chunk ih =>
    have hc : 0x80 ≤ c := hge c (by simp)
    rw [List.foldl_cons, feed_inValue _ _ _ _ _ _ _ _ (by omega),
      next_plain _ _ _ _ (by omega) (by omega) (by omega),
      ih (fun x hx => hge x (by simp [hx]))]
    simp

theorem feed_quoted (raw s : Bytes) (h : Quoted raw s) : ∀ (et er : Bool) (ps : ParseState)
    (key acc : Bytes) (ms : List Member),
    raw.foldl decodeState.feed
        ⟨⟨.stateInString, et, [ps], er⟩, some .object, .inValue key acc, ms⟩ =
      ⟨⟨.stateInString, et, [ps], er⟩, some .object, .inValue key (acc ++ raw), ms⟩ := by
  induction h with
  | nil => intros; simp
  | plain b raw s h1 h2 h3 h4 _ ih =>
    intro et er ps key acc ms
    rw [List.foldl_cons, feed_inValue _ _ _ _ _ _ _ _ (by omega),
      next_plain _ _ _ _ h1 h3 h4, ih]
    simp
  | esc e b raw s he hb _ ih =>
    intro et er ps key acc ms
    rw [List.foldl_cons, feed_inValue _ _ _ _ _ _ _ _ (by omega), next_backslash,
      List.foldl_cons, feed_inValue _ _ _ _ _ _ _ _ (by simp), next_esc _ _ _ _ he, ih]
    simp
  | uni c1 c2 c3 c4 h1 h2 h3 h4 raw s e1 e2 e3 e4 hs _ ih =>
    intro et er ps key acc ms
    rw [List.foldl_cons, feed_inValue _ _ _ _ _ _ _ _ (by omega), next_backslash,
      List.foldl_cons, feed_inValue _ _ _ _ _ _ _ _ (by simp), next_escU,
      List.foldl_cons, feed_inValue _ _ _ _ _ _ _ _ (by simp),
      next_hex _ .stateInStringEscU1 _ _ _ _ (hexVal_isHex _ _ e1) (by simp),
      List.foldl_cons, feed_inValue _ _ _ _ _ _ _ _ (by simp),
      next_hex _ .stateInStringEscU12 _ _ _ _ (hexVal_isHex _ _ e2) (by simp),
      List.foldl_cons, feed_inValue _ _ _ _ _ _ _ _ (by simp),
      next_hex _ .stateInStringEscU123 _ _ _ _ (hexVal_isHex _ _ e3) (by simp),
      List.foldl_cons, feed_inValue _ _ _ _ _ _ _ _ (by simp),
      next_hex _ .stateInString _ _ _ _ (hexVal_isHex _ _ e4) (by simp), ih]
    simp
  | rune chunk r raw s hr _ ih =>
    intro et er ps key acc ms
    rw [List.foldl_append, feed_high chunk hr.2.1, ih]
    simp

end json

namespace json

theorem feed_scan (d : decodeState) (c : Nat) : (d.feed c).scan = (d.scan.next c).1 := by
  unfold decodeState.feed
  repeat (first | rfl | split)

theorem run_scan (data : Bytes) (d : decodeState) :
    (data.foldl decodeState.feed d).scan = data.foldl (fun s c => (s.next c).1) d.scan := by
  induction data generalizing d with
  | nil => rfl
  | cons c data ih => rw [List.foldl_cons, ih, feed_scan, List.foldl_cons]

theorem checkValid_eq (data : Bytes) : checkValid data = (decodeState.run data).scan.eof := by
  unfold checkValid decodeState.run
  rw [run_scan]
  rfl

theorem feed_body (s : Bytes) (h : utf8.ValidString s = true) (key : Bytes) (ms : List Member) :
    (appendStringLoop 0 s).foldl decodeState.feed (inValue key [] ms) =
      inValue key (appendStringLoop 0 s) ms := by
  have := feed_quoted _ _ (quoted_appendString s h) false false .parseObjectValue key [] ms
  simpa [inValue] using this

theorem feed_key_byte (acc : Bytes) (ms : List Member) (c : Nat) (h1 : 0x20 ≤ c) (h2 : c ≠ 0x22)
    (h3 : c ≠ 0x5C) : (inKey acc ms).feed c = inKey (acc ++ [c]) ms := by
  simp only [inKey, decodeState.feed, List.length_singleton]
  rw [if_neg (by simp [h2]), next_plain _ _ _ _ h1 h2 h3]

theorem feed_key (name acc : Bytes) (ms : List Member)
    (h : ∀ c ∈ name, 0x20 ≤ c ∧ c ≠ 0x22 ∧ c ≠ 0x5C) :
    name.foldl decodeState.feed (inKey acc ms) = inKey (acc ++ name) ms := by
  induction name generalizing acc with
  | nil => simp
  | cons c name ih =>
    obtain ⟨h1, h2, h3⟩ := h c (by simp)
    rw [List.foldl_cons, feed_key_byte _ _ _ h1 h2 h3, ih _ (fun x hx => h x (by simp [hx]))]
    simp

theorem feed_key_end (name : Bytes) (ms : List Member) :
    [0x22, 0x3A, 0x22].foldl decodeState.feed (inKey name ms) = inValue name [] ms := rfl

theorem feed_value_end (key acc : Bytes) (ms : List Member) :
    [0x22, 0x2C, 0x22].foldl decodeState.feed (inValue key acc ms) =
      inKey [] (ms ++ [⟨key, .string, acc⟩]) := rfl

theorem feed_begin : [0x7B, 0x22].foldl decodeState.feed decodeState.init = inKey [] [] := rfl

theorem feed_close (key acc : Bytes) (ms : List Member) :
    [0x22, 0x7D].foldl decodeState.feed (inValue key acc ms) =
      ⟨⟨.stateEndTop, true, [], false⟩, some .object, .idle, ms ++ [⟨key, .string, acc⟩]⟩ := rfl

/-- The decoder over the first member of an object up to the opening quote of
its string value. -/
theorem feed_first (name : Bytes) (h : ∀ c ∈ name, 0x20 ≤ c ∧ c ≠ 0x22 ∧ c ≠ 0x5C) :
    ([0x7B, 0x22] ++ (name ++ [0x22, 0x3A, 0x22])).foldl decodeState.feed decodeState.init =
      inValue name [] [] := by
  rw [List.foldl_append, List.foldl_append, feed_begin, feed_key _ _ _ h, feed_key_end]
  rfl

/-- The decoder from inside a string value over its closing quote, the comma
and the next key up to the opening quote of the next string value. -/
theorem feed_member (name key acc : Bytes) (ms : List Member)
    (h : ∀ c ∈ name, 0x20 ≤ c ∧ c ≠ 0x22 ∧ c ≠ 0x5C) :
    ([0x22, 0x2C, 0x22] ++ (name ++ [0x22, 0x3A, 0x22])).foldl decodeState.feed
        (inValue key acc ms) = inValue name [] (ms ++ [⟨key, .string, acc⟩]) := by
  rw [List.foldl_append, List.foldl_append, feed_value_end, feed_key _ _ _ h, feed_key_end]
  rfl

theorem marshalCar_eq (car : Car) : marshalCar car =
    ([0x7B, 0x22] ++ (ascii "assetID" ++ [0x22, 0x3A, 0x22])) ++ (appendStringLoop 0 car.AssetID ++
      (([0x22, 0x2C, 0x22] ++ (ascii "make" ++ [0x22, 0x3A, 0x22])) ++ (appendStringLoop 0 car.Make ++
      (([0x22, 0x2C, 0x22] ++ (ascii "model" ++ [0x22, 0x3A, 0x22])) ++ (appendStringLoop 0 car.Model ++
      (([0x22, 0x2C, 0x22] ++ (ascii "color" ++ [0x22, 0x3A, 0x22])) ++ (appendStringLoop 0 car.Color ++
      (([0x22, 0x2C, 0x22] ++ (ascii "owner" ++ [0x22, 0x3A, 0x22])) ++ (appendStringLoop 0 car.Owner ++
        [0x22, 0x7D]))))))))) := by
  have e0 : ascii "\x7b\"assetID\":" = [0x7B, 0x22] ++ (ascii "assetID" ++ [0x22, 0x3A]) := by
    decide
  have e1 : ascii ",\"make\":" = [0x2C, 0x22] ++ (ascii "make" ++ [0x22, 0x3A]) := by decide
  have e2 : ascii ",\"model\":" = [0x2C, 0x22] ++ (ascii "model" ++ [0x22, 0x3A]) := by decide
  have e3 : ascii ",\"color\":" = [0x2C, 0x22] ++ (ascii "color" ++ [0x22, 0x3A]) := by decide
  have e4 : ascii ",\"owner\":" = [0x2C, 0x22] ++ (ascii "owner" ++ [0x22, 0x3A]) := by decide
  have e5 : ascii "\x7d" = [0x7D] := by decide
  simp only [marshalCar, appendString, e0, e1, e2, e3, e4, e5, List.append_assoc, List.cons_append,
    List.nil_append]

theorem run_marshalCar (car : Car) (h1 : utf8.ValidString car.AssetID = true)
    (h2 : utf8.ValidString car.Make = true) (h3 : utf8.ValidString car.Model = true)
    (h4 : utf8.ValidString car.Color = true) (h5 : utf8.ValidString car.Owner = true) :
    decodeState.run (marshalCar car) =
      ⟨⟨.stateEndTop, true, [], false⟩, some .object, .idle,
        [⟨ascii "assetID", .string, appendStringLoop 0 car.AssetID⟩,
         ⟨ascii "make", .string, appendStringLoop 0 car.Make⟩,
         ⟨ascii "model", .string, appendStringLoop 0 car.Model⟩,
         ⟨ascii "color", .string, appendStringLoop 0 car.Color⟩,
         ⟨ascii "owner", .string, appendStringLoop 0 car.Owner⟩]⟩ := by
  unfold decodeState.run
  rw [marshalCar_eq, List.foldl_append, feed_first _ (by decide),
    List.foldl_append, feed_body _ h1, List.foldl_append, feed_member _ _ _ _ (by decide),
    List.foldl_append, feed_body _ h2, List.foldl_append, feed_member _ _ _ _ (by decide),
    List.foldl_append, feed_body _ h3, List.foldl_append, feed_member _ _ _ _ (by decide),
    List.foldl_append, feed_body _ h4, List.foldl_append, feed_member _ _ _ _ (by decide),
    List.foldl_append, feed_body _ h5, feed_close]
  rfl

theorem storeMember_string (acc : Car × Option GoError) (rawKey key : Bytes) (i : Nat)
    (s : Bytes) (hk : unquoteBytes rawKey = some key) (hf : findField key = some i)
    (hs : utf8.ValidString s = true) :
    storeMember acc ⟨rawKey, .string, appendStringLoop 0 s⟩ = (setField acc.1 i s, acc.2) := by
  simp only [storeMember, hk, hf, unquote_appendString s hs]

/-- Decoding what `Marshal` wrote for a `Car` of valid UTF-8 strings gives the
`Car` back, whatever the `Car` decoded into held before. -/
theorem unmarshal_marshalCar (car old : Car) (h1 : utf8.ValidString car.AssetID = true)
    (h2 : utf8.ValidString car.Make = true) (h3 : utf8.ValidString car.Model = true)
    (h4 : utf8.ValidString car.Color = true) (h5 : utf8.ValidString car.Owner = true) :
    Unmarshal (marshalCar car) old = (car, none) := by
  unfold Unmarshal
  rw [checkValid_eq, run_marshalCar car h1 h2 h3 h4 h5]
  simp only [List.foldl_cons, List.foldl_nil]
  rw [storeMember_string _ _ (ascii "assetID") 0 _ (by decide) (by decide) h1,
    storeMember_string _ _ (ascii "make") 1 _ (by decide) (by decide) h2,
    storeMember_string _ _ (ascii "model") 2 _ (by decide) (by decide) h3,
    storeMember_string _ _ (ascii "color") 3 _ (by decide) (by decide) h4,
    storeMember_string _ _ (ascii "owner") 4 _ (by decide) (by decide) h5]
  rfl

end json

/-! ## The decoder on valid data -/

namespace json

theorem strNext_scanner (st st2 : Step) (et er : Bool) (ps : List ParseState) (c : Nat)
    (h : strNext st c = some st2) : (scanner.next ⟨st, et, ps, er⟩ c).1 = ⟨st2, et, ps, er⟩ := by
  have hex : ∀ nx : Step, (if isHex c = true then some nx else none) = some st2 →
      isHex c = true ∧ nx = st2 := by
    intro nx h
    by_cases h1 : isHex c = true
    · rw [if_pos h1] at h
      exact ⟨h1, by simpa using h⟩
    · rw [if_neg h1] at h; exact absurd h (by simp)
  cases st with
  | stateInString =>
    simp only [strNext] at h
    by_cases h1 : c = 0x22
    · rw [if_pos h1] at h; exact absurd h (by simp)
    · rw [if_neg h1] at h
      by_cases h2 : c = 0x5C
      · rw [if_pos h2] at h
        simp only [Option.some.injEq] at h
        subst h; subst h2; rfl
      · rw [if_neg h2] at h
        by_cases h3 : c < 0x20
        · rw [if_pos h3] at h; exact absurd h (by simp)
        · rw [if_neg h3] at h
          simp only [Option.some.injEq] at h
          subst h
          exact next_plain _ _ _ _ (by omega) h1 h2
  | stateInStringEsc =>
    simp only [strNext] at h
    by_cases h1 : c = 0x62 ∨ c = 0x66 ∨ c = 0x6E ∨ c = 0x72 ∨ c = 0x74 ∨ c = 0x5C ∨ c = 0x2F ∨ c = 0x22
    · rw [if_pos h1] at h
      simp only [Option.some.injEq] at h
      subst h
      exact next_esc _ _ _ _ h1
    · rw [if_neg h1] at h
      by_cases h2 : c = 0x75
      · rw [if_pos h2] at h
        simp only [Option.some.injEq] at h
        subst h; subst h2; rfl
      · rw [if_neg h2] at h; exact absurd h (by simp)
  | stateInStringEscU =>
    obtain ⟨h1, h2⟩ := hex _ h
    subst h2
    exact next_hex _ _ _ _ _ _ h1 (by simp)
  | stateInStringEscU1 =>
    obtain ⟨h1, h2⟩ := hex _ h
    subst h2
    exact next_hex _ _ _ _ _ _ h1 (by simp)
  | stateInStringEscU12 =>
    obtain ⟨h1, h2⟩ := hex _ h
    subst h2
    exact next_hex _ _ _ _ _ _ h1 (by simp)
  | stateInStringEscU123 =>
    obtain ⟨h1, h2⟩ := hex _ h
    subst h2
    exact next_hex _ _ _ _ _ _ h1 (by simp)
  | _ => exact absurd h (by simp [strNext])

theorem strNext_none (st : Step) (et er : Bool) (ps : List ParseState) (c : Nat)
    (hst : isStr st = true) (h : strNext st c = none) (hq : ¬(st = .stateInString ∧ c = 0x22)) :
    (scanner.next ⟨st, et, ps, er⟩ c).1.err = true := by
  have hexn : ∀ nx : Step, (if isHex c = true then some nx else none) = none →
      ¬ isHex c = true := by
    intro nx h h1
    rw [if_pos h1] at h; exact absurd h (by simp)
  cases st with
  | stateInString =>
    simp only [strNext] at h
    have h1 : c ≠ 0x22 := fun e => hq ⟨rfl, e⟩
    rw [if_neg h1] at h
    by_cases h2 : c = 0x5C
    · rw [if_pos h2] at h; exact absurd h (by simp)
    · rw [if_neg h2] at h
      by_cases h3 : c < 0x20
      · simp only [scanner.next, stateInString]
        rw [if_neg h1, if_neg h2, if_pos h3]
        rfl
      · rw [if_neg h3] at h; exact absurd h (by simp)
  | stateInStringEsc =>
    simp only [strNext] at h
    by_cases h1 : c = 0x62 ∨ c = 0x66 ∨ c = 0x6E ∨ c = 0x72 ∨ c = 0x74 ∨ c = 0x5C ∨ c = 0x2F ∨ c = 0x22
    · rw [if_pos h1] at h; exact absurd h (by simp)
    · rw [if_neg h1] at h
      by_cases h2 : c = 0x75
      · rw [if_pos h2] at h; exact absurd h (by simp)
      · simp only [scanner.next, stateInStringEsc]
        rw [if_neg h1, if_neg h2]
        rfl
  | stateInStringEscU =>
    have h1 := hexn _ h
    simp only [scanner.next, stateInStringEscHex]
    rw [if_neg h1]; rfl
  | stateInStringEscU1 =>
    have h1 := hexn _ h
    simp only [scanner.next, stateInStringEscHex]
    rw [if_neg h1]; rfl
  | stateInStringEscU12 =>
    have h1 := hexn _ h
    simp only [scanner.next, stateInStringEscHex]
    rw [if_neg h1]; rfl
  | stateInStringEscU123 =>
    have h1 := hexn _ h
    simp only [scanner.next, stateInStringEscHex]
    rw [if_neg h1]; rfl
  | _ => exact absurd hst (by simp [isStr])

theorem strNext_isStr (st st2 : Step) (c : Nat) (h : strNext st c = some st2) :
    isStr st2 = true := by
  have hex : ∀ nx : Step, (if isHex c = true then some nx else none) = some st2 → nx = st2 := by
    intro nx h
    by_cases h1 : isHex c = true
    · rw [if_pos h1] at h
      simpa using h
    · rw [if_neg h1] at h; exact absurd h (by simp)
  cases st with
  | stateInString =>
    simp only [strNext] at h
    by_cases h1 : c = 0x22
    · rw [if_pos h1] at h; exact absurd h (by simp)
    · rw [if_neg h1] at h
      by_cases h2 : c = 0x5C
      · rw [if_pos h2] at h; simp only [Option.some.injEq] at h; subst h; rfl
      · rw [if_neg h2] at h
        by_cases h3 : c < 0x20
        · rw [if_pos h3] at h; exact absurd h (by simp)
        · rw [if_neg h3] at h; simp only [Option.some.injEq] at h; subst h; rfl
  | stateInStringEsc =>
    simp only [strNext] at h
    by_cases h1 : c = 0x62 ∨ c = 0x66 ∨ c = 0x6E ∨ c = 0x72 ∨ c = 0x74 ∨ c = 0x5C ∨ c = 0x2F ∨ c = 0x22
    · rw [if_pos h1] at h; simp only [Option.some.injEq] at h; subst h; rfl
    · rw [if_neg h1] at h
      by_cases h2 : c = 0x75
      · rw [if_pos h2] at h; simp only [Option.some.injEq] at h; subst h; rfl
      · rw [if_neg h2] at h; exact absurd h (by simp)
  | stateInStringEscU => have := hex _ h; subst this; rfl
  | stateInStringEscU1 => have := hex _ h; subst this; rfl
  | stateInStringEscU12 => have := hex _ h; subst this; rfl
  | stateInStringEscU123 => have := hex _ h; subst this; rfl
  | _ => exact absurd h (by simp [strNext])

theorem strRun_append (st : Step) (a b : Bytes) :
    strRun st (a ++ b) = (strRun st a).bind (fun s => strRun s b) := by
  induction a generalizing st with
  | nil => rfl
  | cons c a ih =>
    simp only [List.cons_append, strRun]
    cases strNext st c with
    | none => rfl
    | some st2 => exact ih st2

theorem strRun_isStr (st st2 : Step) (acc : Bytes) (hst : isStr st = true)
    (h : strRun st acc = some st2) : isStr st2 = true := by
  induction acc generalizing st with
  | nil =>
    simp only [strRun, Option.some.injEq] at h
    subst h; exact hst
  | cons c acc ih =>
    simp only [strRun] at h
    cases hn : strNext st c with
    | none => rw [hn] at h; exact absurd h (by simp)
    | some s2 =>
      rw [hn] at h
      exact ih s2 (strNext_isStr _ _ _ hn) h

theorem strRun_high (chunk X : Bytes) (h : ∀ x ∈ chunk, 0x80 ≤ x) :
    strRun .stateInString (chunk ++ X) = strRun .stateInString X := by
  induction chunk with
  | nil => rfl
  | cons c chunk ih =>
    have hc : 0x80 ≤ c := h c (by simp)
    simp only [List.cons_append, strRun, strNext]
    rw [if_neg (by omega), if_neg (by omega), if_neg (by omega)]
    exact ih (fun x hx => h x (by simp [hx]))

theorem hexVal_of_isHex (c : Nat) (h : isHex c = true) : ∃ v, hexVal c = some v := by
  unfold isHex isDigit at h
  unfold hexVal
  by_cases h1 : 0x30 ≤ c ∧ c ≤ 0x39
  · exact ⟨_, if_pos h1⟩
  · rw [if_neg h1]
    by_cases h2 : 0x61 ≤ c ∧ c ≤ 0x66
    · exact ⟨_, if_pos h2⟩
    · rw [if_neg h2]
      by_cases h3 : 0x41 ≤ c ∧ c ≤ 0x46
      · exact ⟨_, if_pos h3⟩
      · exfalso
        simp at h
        omega

theorem strRun_hex (st nx : Step) (r : Bytes) (res : Step)
    (hst : ∀ c, strNext st c = if isHex c then some nx else none)
    (h : strRun st r = some res) (hne : res ≠ st) :
    ∃ c t, r = c :: t ∧ isHex c = true ∧ strRun nx t = some res := by
  rcases r with _ | ⟨c, t⟩
  · simp only [strRun, Option.some.injEq] at h
    exact absurd h.symm hne
  · simp only [strRun, hst] at h
    by_cases hc : isHex c = true
    · rw [if_pos hc] at h
      exact ⟨c, t, rfl, hc, h⟩
    · rw [if_neg hc] at h
      exact absurd h (by simp)

theorem strRun_escU (r2 : Bytes) (h : strRun .stateInStringEscU r2 = some .stateInString) :
    ∃ c1 c2 c3 c4 r6, r2 = c1 :: c2 :: c3 :: c4 :: r6 ∧ isHex c1 = true ∧ isHex c2 = true ∧
      isHex c3 = true ∧ isHex c4 = true ∧ strRun .stateInString r6 = some .stateInString := by
  obtain ⟨c1, t1, e1, x1, h1⟩ := strRun_hex .stateInStringEscU .stateInStringEscU1 r2 _
    (fun _ => rfl) h (by simp)
  obtain ⟨c2, t2, e2, x2, h2⟩ := strRun_hex .stateInStringEscU1 .stateInStringEscU12 t1 _
    (fun _ => rfl) h1 (by simp)
  obtain ⟨c3, t3, e3, x3, h3⟩ := strRun_hex .stateInStringEscU12 .stateInStringEscU123 t2 _
    (fun _ => rfl) h2 (by simp)
  obtain ⟨c4, t4, e4, x4, h4⟩ := strRun_hex .stateInStringEscU123 .stateInString t3 _
    (fun _ => rfl) h3 (by simp)
  exact ⟨c1, c2, c3, c4, t4, by rw [e1, e2, e3, e4], x1, x2, x3, x4, h4⟩

theorem getu4_shape (s : Bytes) (rr : Nat) (h : getu4 s = some rr) :
    ∃ g1 g2 g3 g4 t, s = 0x5C :: 0x75 :: g1 :: g2 :: g3 :: g4 :: t ∧ isHex g1 = true ∧
      isHex g2 = true ∧ isHex g3 = true ∧ isHex g4 = true := by
  rcases s with _ | ⟨b, _ | ⟨u, _ | ⟨g1, _ | ⟨g2, _ | ⟨g3, _ | ⟨g4, t⟩⟩⟩⟩⟩⟩
  · simp [getu4] at h
  · simp [getu4] at h
  · simp [getu4] at h
  · simp [getu4] at h
  · simp [getu4] at h
  · simp [getu4] at h
  simp only [getu4] at h
  by_cases hb : b = 0x5C ∧ u = 0x75
  · rw [if_pos hb] at h
    obtain ⟨rfl, rfl⟩ := hb
    cases e1 : hexVal g1 with
    | none => simp [e1] at h
    | some v1 =>
      cases e2 : hexVal g2 with
      | none => simp [e1, e2] at h
      | some v2 =>
        cases e3 : hexVal g3 with
        | none => simp [e1, e2, e3] at h
        | some v3 =>
          cases e4 : hexVal g4 with
          | none => simp [e1, e2, e3, e4] at h
          | some v4 =>
            exact ⟨g1, g2, g3, g4, t, rfl, hexVal_isHex _ _ e1, hexVal_isHex _ _ e2,
              hexVal_isHex _ _ e3, hexVal_isHex _ _ e4⟩
  · rw [if_neg hb] at h
    exact absurd h (by simp)

theorem getu4_of_hex (c1 c2 c3 c4 : Nat) (t : Bytes) (x1 : isHex c1 = true)
    (x2 : isHex c2 = true) (x3 : isHex c3 = true) (x4 : isHex c4 = true) :
    ∃ rr, getu4 (0x5C :: 0x75 :: c1 :: c2 :: c3 :: c4 :: t) = some rr := by
  obtain ⟨v1, e1⟩ := hexVal_of_isHex c1 x1
  obtain ⟨v2, e2⟩ := hexVal_of_isHex c2 x2
  obtain ⟨v3, e3⟩ := hexVal_of_isHex c3 x3
  obtain ⟨v4, e4⟩ := hexVal_of_isHex c4 x4
  exact ⟨((v1 * 16 + v2) * 16 + v3) * 16 + v4, by simp [getu4, e1, e2, e3, e4]⟩

theorem strRun_uXXXX (g1 g2 g3 g4 : Nat) (t : Bytes) (x1 : isHex g1 = true)
    (x2 : isHex g2 = true) (x3 : isHex g3 = true) (x4 : isHex g4 = true) :
    strRun .stateInString (0x5C :: 0x75 :: g1 :: g2 :: g3 :: g4 :: t) =
      strRun .stateInString t := by
  simp [strRun, strNext, x1, x2, x3, x4]

/-- A run of bytes that the scanner accepts as the inside of a string literal
is unquoted by `unquoteBytes` without failure. -/
theorem unquote_of_strRun (n : Nat) : ∀ acc : Bytes, acc.length ≤ n →
    strRun .stateInString acc = some .stateInString → (unquoteLoop 0 acc).isSome = true := by
  induction n with
  | zero =>
    intro acc hl _
    have : acc = [] := List.eq_nil_of_length_eq_zero (by omega)
    subst this
    rfl
  | succ n ih =>
    intro acc hl h
    rcases acc with _ | ⟨c, rest⟩
    · rfl
    simp only [List.length_cons] at hl
    simp only [strRun, strNext] at h
    by_cases h1 : c = 0x22
    · rw [if_pos h1] at h; exact absurd h (by simp)
    rw [if_neg h1] at h
    by_cases h2 : c = 0x5C
    · rw [if_pos h2] at h
      simp only [] at h
      subst h2
      rcases rest with _ | ⟨e, r2⟩
      · simp [strRun] at h
      simp only [strRun, strNext] at h
      by_cases he : e = 0x62 ∨ e = 0x66 ∨ e = 0x6E ∨ e = 0x72 ∨ e = 0x74 ∨ e = 0x5C ∨ e = 0x2F ∨
          e = 0x22
      · rw [if_pos he] at h
        simp only [] at h
        have hne : e ≠ 0x75 := by omega
        have hub : ∃ b, unescapeByte e = some b := by
          unfold unescapeByte
          by_cases k1 : e = 0x22 ∨ e = 0x5C ∨ e = 0x2F ∨ e = 0x27
          · exact ⟨_, if_pos k1⟩
          rw [if_neg k1]
          by_cases k2 : e = 0x62
          · exact ⟨_, if_pos k2⟩
          rw [if_neg k2]
          by_cases k3 : e = 0x66
          · exact ⟨_, if_pos k3⟩
          rw [if_neg k3]
          by_cases k4 : e = 0x6E
          · exact ⟨_, if_pos k4⟩
          rw [if_neg k4]
          by_cases k5 : e = 0x72
          · exact ⟨_, if_pos k5⟩
          rw [if_neg k5]
          by_cases k6 : e = 0x74
          · exact ⟨_, if_pos k6⟩
          exfalso; omega
        obtain ⟨b, hb⟩ := hub
        unfold unquoteLoop
        simp only [if_true, if_neg hne, hb]
        unfold unquoteLoop
        have := ih r2 (by simp at hl; omega) h
        cases hq : unquoteLoop 0 r2 with
        | none => rw [hq] at this; exact absurd this (by simp)
        | some t => rfl
      · rw [if_neg he] at h
        by_cases hu : e = 0x75
        · rw [if_pos hu] at h
          simp only [] at h
          subst hu
          obtain ⟨c1, c2, c3, c4, r6, hr2, x1, x2, x3, x4, h6⟩ := strRun_escU r2 h
          subst hr2
          obtain ⟨rr, hrr⟩ := getu4_of_hex c1 c2 c3 c4 r6 x1 x2 x3 x4
          have hskip5 := unquoteLoop_skip [0x75, c1, c2, c3, c4] r6
          simp only [List.length_cons, List.length_nil, List.cons_append, List.nil_append] at hskip5
          have ih6 := ih r6 (by simp at hl; omega) h6
          unfold unquoteLoop
          simp only [if_true, hrr]
          by_cases hs : utf16.IsSurrogate rr = true
          · rw [if_pos hs]
            by_cases hp : utf16.DecodeRune rr (getu4 (List.drop 5 (0x75 :: c1 :: c2 :: c3 :: c4 :: r6)))
                ≠ 0xFFFD
            · rw [if_pos hp]
              have hd : List.drop 5 (0x75 :: c1 :: c2 :: c3 :: c4 :: r6) = r6 := rfl
              rw [hd] at hp ⊢
              cases hg : getu4 r6 with
              | none => rw [hg] at hp; exact absurd rfl hp
              | some rr1 =>
                obtain ⟨g1, g2, g3, g4, t, hr6, y1, y2, y3, y4⟩ := getu4_shape r6 rr1 hg
                subst hr6
                rw [strRun_uXXXX g1 g2 g3 g4 t y1 y2 y3 y4] at h6
                have iht := ih t (by simp at hl; omega) h6
                have hskip11 := unquoteLoop_skip [0x75, c1, c2, c3, c4, 0x5C, 0x75, g1, g2, g3, g4] t
                simp only [List.length_cons, List.length_nil, List.cons_append,
                  List.nil_append] at hskip11
                rw [hskip11]
                cases hq : unquoteLoop 0 t with
                | none => rw [hq] at iht; exact absurd iht (by simp)
                | some t => rfl
            · rw [if_neg hp, hskip5]
              cases hq : unquoteLoop 0 r6 with
              | none => rw [hq] at ih6; exact absurd ih6 (by simp)
              | some t => rfl
          · rw [if_neg hs, hskip5]
            cases hq : unquoteLoop 0 r6 with
            | none => rw [hq] at ih6; exact absurd ih6 (by simp)
            | some t => rfl
        · rw [if_neg hu] at h
          exact absurd h (by simp)
    rw [if_neg h2] at h
    by_cases h3 : c < 0x20
    · rw [if_pos h3] at h; exact absurd h (by simp)
    rw [if_neg h3] at h
    simp only [] at h
    unfold unquoteLoop
    rw [if_neg h2, if_neg (by omega)]
    by_cases h4 : c < utf8.RuneSelf
    · rw [if_pos h4]
      have := ih rest (by omega) h
      cases hq : unquoteLoop 0 rest with
      | none => rw [hq] at this; exact absurd this (by simp)
      | some t => rfl
    · rw [if_neg h4]
      by_cases hbad : (utf8.DecodeRune (c :: rest)).1 = utf8.RuneError ∧
          (utf8.DecodeRune (c :: rest)).2 = 1
      · rw [hbad.2]
        have := ih rest (by omega) h
        cases hq : unquoteLoop 0 rest with
        | none => rw [hq] at this; exact absurd this (by simp)
        | some t => simp [hq]
      · obtain ⟨chunk, tail, hsplit, hR, hlen⟩ := utf8.decodeRune_valid c rest hbad h4
        rcases chunk with _ | ⟨c0, ct⟩
        · exact absurd hR.1 (by simp)
        simp only [List.cons_append, List.cons.injEq] at hsplit
        obtain ⟨hc0, hrest⟩ := hsplit
        subst hc0
        subst hrest
        rw [hlen]
        simp only [List.length_cons, Nat.add_sub_cancel]
        rw [unquoteLoop_skip]
        rw [strRun_high ct tail (fun x hx => hR.2.1 x (by simp [hx]))] at h
        have := ih tail (by simp at hl; omega) h
        cases hq : unquoteLoop 0 tail with
        | none => rw [hq] at this; exact absurd this (by simp)
        | some t => rfl

theorem unquoteBytes_of_strRun (acc : Bytes)
    (h : strRun .stateInString acc = some .stateInString) : (unquoteBytes acc).isSome = true :=
  unquote_of_strRun acc.length acc (Nat.le_refl _) h

theorem stateEndTop_err (s : scanner) (c : Nat) (h : s.err = true) :
    (stateEndTop s c).1.err = true := by
  unfold stateEndTop
  split
  · rfl
  · exact h

theorem popParseState_err (s : scanner) (h : s.err = true) : (scanner.popParseState s).err = true := by
  unfold scanner.popParseState
  split <;> exact h

theorem pushParseState_err (s : scanner) (p : ParseState) (o : Op) (h : s.err = true) :
    (scanner.pushParseState s p o).1.err = true := by
  unfold scanner.pushParseState
  split
  · exact h
  · rfl

theorem stateEndValue_err (s : scanner) (c : Nat) (h : s.err = true) :
    (stateEndValue s c).1.err = true := by
  unfold stateEndValue
  split
  · exact stateEndTop_err _ _ h
  · split
    · exact h
    · split <;> repeat (first | exact h | rfl | exact popParseState_err _ h | split)

theorem stateBeginValue_err (s : scanner) (c : Nat) (h : s.err = true) :
    (stateBeginValue s c).1.err = true := by
  unfold stateBeginValue
  repeat (first | exact h | rfl | exact pushParseState_err _ _ _ h | split)

theorem state0_err (s : scanner) (c : Nat) (h : s.err = true) : (state0 s c).1.err = true := by
  unfold state0
  repeat (first | exact h | rfl | exact stateEndValue_err _ _ h | split)

theorem stateESign_err (s : scanner) (c : Nat) (h : s.err = true) :
    (stateESign s c).1.err = true := by
  unfold stateESign
  repeat (first | exact h | rfl | split)

theorem stateBeginString_err (s : scanner) (c : Nat) (h : s.err = true) :
    (stateBeginString s c).1.err = true := by
  unfold stateBeginString
  repeat (first | exact h | rfl | split)

/-- A recorded error stays recorded. -/
theorem next_err (s : scanner) (c : Nat) (h : s.err = true) : (s.next c).1.err = true := by
  unfold scanner.next
  split
  · unfold stateBeginValueOrEmpty
    repeat (first | exact h | exact stateEndValue_err _ _ h | exact stateBeginValue_err _ _ h | split)
  · exact stateBeginValue_err _ _ h
  · unfold stateBeginStringOrEmpty
    repeat (first | exact h | exact stateEndValue_err _ _ h | exact stateBeginString_err _ _ h | split)
  · exact stateBeginString_err _ _ h
  · exact stateEndValue_err _ _ h
  · exact stateEndTop_err _ _ h
  · unfold stateInString
    repeat (first | exact h | rfl | split)
  · unfold stateInStringEsc
    repeat (first | exact h | rfl | split)
  · unfold stateInStringEscHex
    repeat (first | exact h | rfl | split)
  · unfold stateInStringEscHex
    repeat (first | exact h | rfl | split)
  · unfold stateInStringEscHex
    repeat (first | exact h | rfl | split)
  · unfold stateInStringEscHex
    repeat (first | exact h | rfl | split)
  · unfold stateNeg
    repeat (first | exact h | rfl | split)
  · unfold state1
    repeat (first | exact h | rfl | exact state0_err _ _ h | split)
  · exact state0_err _ _ h
  · unfold stateDot
    repeat (first | exact h | rfl | split)
  · unfold stateDot0
    repeat (first | exact h | rfl | exact stateEndValue_err _ _ h | split)
  · unfold stateE
    repeat (first | exact h | rfl | exact stateESign_err _ _ h | split)
  · exact stateESign_err _ _ h
  · unfold stateE0
    repeat (first | exact h | rfl | exact stateEndValue_err _ _ h | split)
  all_goals first
    | exact h
    | (unfold stateLit; repeat (first | exact h | rfl | split))

theorem next_quote (s : scanner) :
    (s.next 0x22).2 ≠ .scanBeginObject ∧ (s.next 0x22).2 ≠ .scanBeginArray ∧
      ((s.next 0x22).2 = .scanBeginLiteral → (s.next 0x22).1 = { s with step := .stateInString }) := by
  obtain ⟨st, et, ps, er⟩ := s
  cases st <;>
    simp [scanner.next, stateBeginValueOrEmpty, stateBeginValue, stateBeginStringOrEmpty,
      stateBeginString, stateEndValue, stateEndTop, stateInString, stateInStringEsc,
      stateInStringEscHex, stateNeg, state1, state0, stateDot, stateDot0, stateE, stateESign,
      stateE0, stateLit, isSpace, isDigit, isHex, scanner.error] <;>
    (try (split <;> (try split) <;> simp [scanner.error, scanner.popParseState]))

theorem kindOf_string (c : Nat) (h : kindOf c = .string) : c = 0x22 := by
  unfold kindOf at h
  by_cases h1 : c = 0x7B
  · rw [if_pos h1] at h; exact absurd h (by simp)
  rw [if_neg h1] at h
  by_cases h2 : c = 0x5B
  · rw [if_pos h2] at h; exact absurd h (by simp)
  rw [if_neg h2] at h
  by_cases h3 : c = 0x22
  · exact h3
  rw [if_neg h3] at h
  by_cases h4 : c = 0x6E
  · rw [if_pos h4] at h; exact absurd h (by simp)
  rw [if_neg h4] at h
  by_cases h5 : c = 0x74 ∨ c = 0x66
  · rw [if_pos h5] at h; exact absurd h (by simp)
  rw [if_neg h5] at h
  exact absurd h (by simp)

theorem inv_accumulate (s : scanner) (acc : Bytes) (c : Nat) (hlen : s.parseState.length = 1)
    (hrun : strRun .stateInString acc = some s.step) (hq : ¬(s.step = .stateInString ∧ c = 0x22)) :
    (s.next c).1.err = true ∨
      ((s.next c).1.parseState.length = 1 ∧
        strRun .stateInString (acc ++ [c]) = some (s.next c).1.step) := by
  obtain ⟨st, et, ps, er⟩ := s
  simp only at hlen hrun hq
  have hst : isStr st = true := strRun_isStr .stateInString st acc rfl hrun
  cases hn : strNext st c with
  | none => exact Or.inl (strNext_none st et er ps c hst hn hq)
  | some st2 =>
    right
    rw [strNext_scanner st st2 et er ps c hn, strRun_append, hrun]
    exact ⟨hlen, by simp [strRun, hn]⟩

theorem feed_inv (d : decodeState) (c : Nat) (h : d.Inv) : (d.feed c).Inv := by
  rcases h with herr | ⟨hm, hc⟩
  · left
    rw [feed_scan]
    exact next_err _ _ herr
  obtain ⟨s, top, cur, ms⟩ := d
  simp only at hm hc
  unfold decodeState.feed
  simp only
  split
  · -- depth 0
    rename_i hdepth
    cases cur with
    | idle => split <;> exact Or.inr ⟨hm, trivial⟩
    | afterKey key => split <;> exact Or.inr ⟨hm, hc⟩
    | inKey acc => simp only at hc; omega
    | inValue key acc => simp only at hc; omega
  · -- depth 1 of an object
    rename_i _ hdepth
    have htop : some Kind.object = some Kind.object := rfl
    cases cur with
    | idle =>
      simp only
      split
      · rename_i hb
        have := (next_quote s).2.2
        obtain ⟨hb1, hb2⟩ := hb
        subst hb2
        rw [this hb1]
        exact Or.inr ⟨hm, hdepth, htop, rfl⟩
      · exact Or.inr ⟨hm, trivial⟩
    | inKey acc =>
      simp only at hc ⊢
      split
      · rename_i hq
        right
        refine ⟨hm, ?_⟩
        simp only
        rw [hq.1] at hc
        exact unquoteBytes_of_strRun acc hc.2.2
      · rename_i hq
        rcases inv_accumulate s acc c hc.1 hc.2.2 hq with he | ⟨h1, h2⟩
        · exact Or.inl he
        · exact Or.inr ⟨hm, h1, htop, h2⟩
    | afterKey key =>
      simp only at hc ⊢
      have hgood : ∀ k : Kind, k ≠ .string → ∀ m ∈ ms ++ [⟨key, k, []⟩], m.Good := by
        intro k hk m hmem
        rcases List.mem_append.mp hmem with hmem | hmem
        · exact hm m hmem
        · simp only [List.mem_singleton] at hmem
          subst hmem
          exact ⟨hc, fun e => absurd e hk⟩
      split
      · rename_i hop
        split
        · rename_i hq
          subst hq
          rw [(next_quote s).2.2 hop]
          exact Or.inr ⟨hm, hc, hdepth, htop, rfl⟩
        · rename_i hq
          exact Or.inr ⟨hgood _ (fun e => hq (kindOf_string c e)), trivial⟩
      · rename_i hop
        refine Or.inr ⟨hgood _ (fun e => ?_), trivial⟩
        have := kindOf_string c e
        subst this
        exact (next_quote s).1 hop
      · rename_i hop
        refine Or.inr ⟨hgood _ (fun e => ?_), trivial⟩
        have := kindOf_string c e
        subst this
        exact (next_quote s).2.1 hop
      · exact Or.inr ⟨hm, hc⟩
    | inValue key acc =>
      simp only at hc ⊢
      split
      · rename_i hq
        right
        refine ⟨?_, trivial⟩
        intro m hmem
        rcases List.mem_append.mp hmem with hmem | hmem
        · exact hm m hmem
        · simp only [List.mem_singleton] at hmem
          subst hmem
          rw [hq.1] at hc
          exact ⟨hc.1, fun _ => unquoteBytes_of_strRun acc hc.2.2.2⟩
      · rename_i hq
        rcases inv_accumulate s acc c hc.2.1 hc.2.2.2 hq with he | ⟨h1, h2⟩
        · exact Or.inl he
        · exact Or.inr ⟨hm, hc.1, h1, htop, h2⟩
  · -- elsewhere
    rename_i hno1 hno2
    cases cur with
    | idle => exact Or.inr ⟨hm, trivial⟩
    | afterKey key => exact Or.inr ⟨hm, hc⟩
    | inKey acc =>
      simp only at hc
      exact absurd hc.2.1 (hno2 hc.1)
    | inValue key acc =>
      simp only at hc
      exact absurd hc.2.2.1 (hno2 hc.2.1)

theorem run_inv (data : Bytes) : (decodeState.run data).Inv := by
  have : ∀ (l : Bytes) (d : decodeState), d.Inv → (l.foldl decodeState.feed d).Inv := by
    intro l
    induction l with
    | nil => exact fun d h => h
    | cons c l ih => exact fun d h => ih _ (feed_inv d c h)
  exact this data decodeState.init (Or.inr ⟨by simp [decodeState.init], trivial⟩)

/-- On data that passes `checkValid`, `unquoteBytes` succeeds on every key and
every string value the decoder reads: where decode.go would panic, it never
gets. -/
theorem unquote_members (data : Bytes) (hv : checkValid data = true) :
    ∀ m ∈ (decodeState.run data).members,
      (unquoteBytes m.key).isSome = true ∧
        (m.kind = .string → (unquoteBytes m.body).isSome = true) := by
  have herr : (decodeState.run data).scan.err = false := by
    rw [checkValid_eq] at hv
    unfold scanner.eof at hv
    cases h : (decodeState.run data).scan.err with
    | false => rfl
    | true => rw [h] at hv; simp at hv
  rcases run_inv data with h | ⟨h, _⟩
  · rw [herr] at h; exact absurd h (by simp)
  · exact h

theorem feed_top_cases (d : decodeState) (c : Nat) :
    (d.feed c).top = d.top ∨ (d.feed c).top = some (kindOf c) := by
  unfold decodeState.feed
  repeat (first | exact Or.inl rfl | exact Or.inr rfl | split)

theorem feed_top (d : decodeState) (c : Nat) (h : d.top ≠ none) : (d.feed c).top ≠ none := by
  rcases feed_top_cases d c with e | e
  · rw [e]; exact h
  · rw [e]; simp

theorem feed_started (d : decodeState) (c : Nat) (h : d.Started) : (d.feed c).Started := by
  rcases h with h | h | ⟨h1, h2, h3⟩
  · exact Or.inl (feed_top d c h)
  · right; left
    rw [feed_scan]
    exact next_err _ _ h
  · obtain ⟨⟨st, et, ps, er⟩, top, cur, ms⟩ := d
    simp only at h1 h2 h3
    subst h1; subst h2; subst h3
    by_cases hsp : isSpace c = true
    · right; right
      rw [feed_scan]
      simp [scanner.next, stateBeginValue, hsp]
    · by_cases hb : c = 0x7B ∨ c = 0x5B ∨ c = 0x22 ∨ c = 0x2D ∨ c = 0x30 ∨ c = 0x74 ∨ c = 0x66 ∨
          c = 0x6E ∨ (0x31 ≤ c ∧ c ≤ 0x39)
      · left
        simp only [decodeState.feed, List.length_nil, scanner.next, stateBeginValue, hsp]
        rcases hb with hb | hb | hb | hb | hb | hb | hb | hb | hb
        · subst hb; simp [scanner.pushParseState, maxNestingDepth]
        · subst hb; simp [scanner.pushParseState, maxNestingDepth]
        · subst hb; simp
        · subst hb; simp
        · subst hb; simp
        · subst hb; simp
        · subst hb; simp
        · subst hb; simp
        · have k1 : c ≠ 0x7B := by omega
          have k2 : c ≠ 0x5B := by omega
          have k3 : c ≠ 0x22 := by omega
          have k4 : c ≠ 0x2D := by omega
          have k5 : c ≠ 0x30 := by omega
          have k6 : c ≠ 0x74 := by omega
          have k7 : c ≠ 0x66 := by omega
          have k8 : c ≠ 0x6E := by omega
          simp [k1, k2, k3, k4, k5, k6, k7, k8, hb]
      · right; left
        rw [feed_scan]
        have k1 : c ≠ 0x7B := fun e => hb (by simp [e])
        have k2 : c ≠ 0x5B := fun e => hb (by simp [e])
        have k3 : c ≠ 0x22 := fun e => hb (by simp [e])
        have k4 : c ≠ 0x2D := fun e => hb (by simp [e])
        have k5 : c ≠ 0x30 := fun e => hb (by simp [e])
        have k6 : c ≠ 0x74 := fun e => hb (by simp [e])
        have k7 : c ≠ 0x66 := fun e => hb (by simp [e])
        have k8 : c ≠ 0x6E := fun e => hb (by simp [e])
        have k9 : ¬(0x31 ≤ c ∧ c ≤ 0x39) := fun e => hb (by simp [e])
        simp only [scanner.next, stateBeginValue, hsp]
        simp [k1, k2, k3, k4, k5, k6, k7, k8, k9, scanner.error]

theorem run_started (data : Bytes) : (decodeState.run data).Started := by
  have : ∀ (l : Bytes) (d : decodeState), d.Started → (l.foldl decodeState.feed d).Started := by
    intro l
    induction l with
    | nil => exact fun d h => h
    | cons c l ih => exact fun d h => ih _ (feed_started d c h)
  exact this data decodeState.init (Or.inr (Or.inr ⟨rfl, rfl, rfl⟩))

/-- On data that passes `checkValid` the decoder has seen a top-level value. -/
theorem top_of_valid (data : Bytes) (hv : checkValid data = true) :
    (decodeState.run data).top ≠ none := by
  rw [checkValid_eq] at hv
  rcases run_started data with h | h | ⟨h1, h2, h3⟩
  · exact h
  · unfold scanner.eof at hv
    rw [h] at hv
    simp at hv
  · exfalso
    generalize (decodeState.run data).scan = s at hv h1 h2 h3
    obtain ⟨st, et, ps, er⟩ := s
    simp only at h1 h2 h3
    subst h1; subst h2; subst h3
    cases er <;> simp [scanner.eof, scanner.next, stateBeginValue, isSpace] at hv

end json

/-! ## The order of keys and the world state -/

theorem keyLt_irrefl (a : Bytes) : keyLt a a = false := by
  induction a with
  | nil => rfl
  | cons x a ih => simp [keyLt, ih]

theorem keyLt_asymm (a b : Bytes) (h : keyLt a b = true) : keyLt b a = false := by
  induction a generalizing b with
  | nil => cases b <;> simp [keyLt] at h ⊢
  | cons x a ih =>
    cases b with
    | nil => simp [keyLt] at h
    | cons y b =>
      simp only [keyLt] at h ⊢
      by_cases h1 : x < y
      · rw [if_neg (by omega), if_pos h1]
      · rw [if_neg h1] at h
        by_cases h2 : y < x
        · rw [if_pos h2] at h; exact absurd h (by simp)
        · rw [if_neg h2] at h
          rw [if_neg h2, if_neg h1]
          exact ih b h

theorem keyLt_total (a b : Bytes) (hne : a ≠ b) (h : keyLt a b = false) : keyLt b a = true := by
  induction a generalizing b with
  | nil =>
    cases b with
    | nil => exact absurd rfl hne
    | cons y b => simp [keyLt] at h
  | cons x a ih =>
    cases b with
    | nil => rfl
    | cons y b =>
      simp only [keyLt] at h ⊢
      by_cases h1 : x < y
      · rw [if_pos h1] at h; exact absurd h (by simp)
      · rw [if_neg h1] at h
        by_cases h2 : y < x
        · rw [if_pos h2]
        · rw [if_neg h2] at h
          rw [if_neg h2, if_neg h1]
          have hxy : x = y := by omega
          subst hxy
          exact ih b (fun e => hne (by rw [e])) h

theorem keyLt_trans (a b c : Bytes) (h1 : keyLt a b = true) (h2 : keyLt b c = true) :
    keyLt a c = true := by
  induction a generalizing b c with
  | nil =>
    cases c with
    | nil => cases b <;> simp [keyLt] at h1 h2
    | cons z c => rfl
  | cons x a ih =>
    cases b with
    | nil => simp [keyLt] at h1
    | cons y b =>
      cases c with
      | nil => simp [keyLt] at h2
      | cons z c =>
        simp only [keyLt] at h1 h2 ⊢
        by_cases hxy : x < y
        · by_cases hyz : y < z
          · rw [if_pos (by omega)]
          · rw [if_neg hyz] at h2
            by_cases hzy : z < y
            · rw [if_pos hzy] at h2; exact absurd h2 (by simp)
            · rw [if_pos (by omega)]
        · rw [if_neg hxy] at h1
          by_cases hyx : y < x
          · rw [if_pos hyx] at h1; exact absurd h1 (by simp)
          · rw [if_neg hyx] at h1
            by_cases hyz : y < z
            · rw [if_pos (by omega)]
            · rw [if_neg hyz] at h2
              by_cases hzy : z < y
              · rw [if_pos hzy] at h2; exact absurd h2 (by simp)
              · rw [if_neg hzy] at h2
                rw [if_neg (by omega), if_neg (by omega)]
                exact ih b c h1 h2

theorem keyLt_ne (a b : Bytes) (h : keyLt a b = true) : a ≠ b := by
  intro e
  subst e
  rw [keyLt_irrefl] at h
  exact absurd h (by simp)

/-! ### `upsert` and `getValue` -/

theorem getValue_upsert_self (key value : Bytes) (l : List (Bytes × Bytes)) :
    getValue key (upsert key value l) = some value := by
  induction l with
  | nil => simp [upsert, getValue]
  | cons e l ih =>
    obtain ⟨k, v⟩ := e
    unfold upsert
    by_cases h1 : k = key
    · rw [if_pos h1]; simp [getValue]
    · rw [if_neg h1]
      by_cases h2 : keyLt key k = true
      · rw [if_pos h2]; simp [getValue]
      · rw [if_neg h2]; simp [getValue, h1, ih]

theorem getValue_upsert_other (key value other : Bytes) (l : List (Bytes × Bytes))
    (h : key ≠ other) : getValue other (upsert key value l) = getValue other l := by
  induction l with
  | nil => simp [upsert, getValue, h]
  | cons e l ih =>
    obtain ⟨k, v⟩ := e
    unfold upsert
    by_cases h1 : k = key
    · rw [if_pos h1]; subst h1; simp [getValue, h]
    · rw [if_neg h1]
      by_cases h2 : keyLt key k = true
      · rw [if_pos h2]; simp [getValue, h]
      · rw [if_neg h2]; simp [getValue, ih]

theorem upsert_replace (key value value2 : Bytes) (pre post : List (Bytes × Bytes))
    (h : ∀ e ∈ pre, keyLt e.1 key = true) :
    upsert key value2 (pre ++ (key, value) :: post) = pre ++ (key, value2) :: post := by
  induction pre with
  | nil => simp [upsert]
  | cons e pre ih =>
    obtain ⟨k, v⟩ := e
    have hk : keyLt k key = true := h (k, v) (by simp)
    simp only [List.cons_append, upsert]
    rw [if_neg (keyLt_ne _ _ hk), if_neg (by rw [keyLt_asymm _ _ hk]; simp)]
    exact congrArg (fun t => (k, v) :: t) (ih (fun e he => h e (by simp [he])))

theorem settled_upsert (key value : Bytes) (l : List (Bytes × Bytes)) :
    Settled key value (upsert key value l) := by
  induction l with
  | nil => exact ⟨[], [], rfl, by simp⟩
  | cons e l ih =>
    obtain ⟨k, v⟩ := e
    unfold upsert
    by_cases h1 : k = key
    · rw [if_pos h1]; exact ⟨[], l, rfl, by simp⟩
    · rw [if_neg h1]
      by_cases h2 : keyLt key k = true
      · rw [if_pos h2]; exact ⟨[], (k, v) :: l, rfl, by simp⟩
      · rw [if_neg h2]
        obtain ⟨pre, post, he, hp⟩ := ih
        refine ⟨(k, v) :: pre, post, by rw [he]; rfl, ?_⟩
        intro e he'
        rcases List.mem_cons.mp he' with rfl | he'
        · exact keyLt_total _ _ (fun e => h1 e.symm) (by simpa using h2)
        · exact hp e he'

theorem upsert_settled (key value : Bytes) (l : List (Bytes × Bytes))
    (h : Settled key value l) : upsert key value l = l := by
  obtain ⟨pre, post, he, hp⟩ := h
  rw [he, upsert_replace _ _ _ _ _ hp]

theorem settled_upsert_other (key value k2 v2 : Bytes) (l : List (Bytes × Bytes))
    (hne : k2 ≠ key) (h : Settled key value l) : Settled key value (upsert k2 v2 l) := by
  obtain ⟨pre, post, he, hp⟩ := h
  subst he
  induction pre with
  | nil =>
    simp only [List.nil_append, upsert]
    rw [if_neg (fun e => hne e.symm)]
    by_cases h2 : keyLt k2 key = true
    · rw [if_pos h2]
      exact ⟨[(k2, v2)], post, rfl, by simpa using h2⟩
    · rw [if_neg h2]
      exact ⟨[], _, rfl, by simp⟩
  | cons e pre ih =>
    obtain ⟨k, v⟩ := e
    have hk : keyLt k key = true := hp (k, v) (by simp)
    simp only [List.cons_append, upsert]
    by_cases h1 : k = k2
    · rw [if_pos h1]
      refine ⟨(k2, v2) :: pre, post, rfl, ?_⟩
      intro e he
      rcases List.mem_cons.mp he with rfl | he
      · rw [← h1]; exact hk
      · exact hp e (by simp [he])
    · rw [if_neg h1]
      by_cases h2 : keyLt k2 k = true
      · rw [if_pos h2]
        refine ⟨(k2, v2) :: (k, v) :: pre, post, rfl, ?_⟩
        intro e he
        rcases List.mem_cons.mp he with rfl | he
        · exact keyLt_trans _ _ _ h2 hk
        · exact hp e he
      · rw [if_neg h2]
        obtain ⟨pre2, post2, he2, hp2⟩ := ih (fun e he => hp e (by simp [he]))
        refine ⟨(k, v) :: pre2, post2, congrArg (fun t => (k, v) :: t) he2, ?_⟩
        intro e he
        rcases List.mem_cons.mp he with rfl | he
        · exact hk
        · exact hp2 e he

theorem upsert_split (key value : Bytes) (l : List (Bytes × Bytes)) (hs : ascending l) :
    ∃ pre post, upsert key value l = pre ++ (key, value) :: post ∧
      (∀ e ∈ pre, keyLt e.1 key = true) ∧ (∀ e ∈ pre, e ∈ l ∧ e.1 ≠ key) ∧
      (∀ e ∈ post, e ∈ l ∧ e.1 ≠ key) := by
  induction l with
  | nil => exact ⟨[], [], rfl, by simp, by simp, by simp⟩
  | cons e l ih =>
    obtain ⟨k, v⟩ := e
    have hs' := List.pairwise_cons.mp hs
    unfold upsert
    by_cases h1 : k = key
    · rw [if_pos h1]
      refine ⟨[], l, rfl, by simp, by simp, ?_⟩
      intro e he
      refine ⟨by simp [he], ?_⟩
      have := hs'.1 e he
      rw [h1] at this
      exact fun e' => keyLt_ne _ _ this e'.symm
    · rw [if_neg h1]
      by_cases h2 : keyLt key k = true
      · rw [if_pos h2]
        refine ⟨[], (k, v) :: l, rfl, by simp, by simp, ?_⟩
        intro e he
        refine ⟨he, ?_⟩
        rcases List.mem_cons.mp he with rfl | he
        · exact h1
        · exact fun e' => keyLt_ne _ _ (keyLt_trans _ _ _ h2 (hs'.1 e he)) e'.symm
      · rw [if_neg h2]
        obtain ⟨pre, post, he, hp1, hp2, hp3⟩ := ih hs'.2
        refine ⟨(k, v) :: pre, post, congrArg (fun t => (k, v) :: t) he, ?_, ?_, ?_⟩
        · intro e he'
          rcases List.mem_cons.mp he' with rfl | he'
          · exact keyLt_total _ _ (fun e => h1 e.symm) (by simpa using h2)
          · exact hp1 e he'
        · intro e he'
          rcases List.mem_cons.mp he' with rfl | he'
          · exact ⟨by simp, h1⟩
          · exact ⟨by simp [(hp2 e he').1], (hp2 e he').2⟩
        · intro e he'
          exact ⟨by simp [(hp3 e he').1], (hp3 e he').2⟩

/-! ### The loops -/

theorem queryLoop_ok (f : Faults) (w : World) (l : List (Bytes × Bytes))
    (hnext : ∀ i, f.next w i = none)
    (hdec : ∀ e ∈ l, (json.Unmarshal e.2 Car.zero).2 = none) (i : Nat) (found : List Car) :
    queryLoop f w i l found = (found ++ l.map (fun e => (json.Unmarshal e.2 Car.zero).1), none) := by
  induction l generalizing i found with
  | nil => simp [queryLoop]
  | cons e l ih =>
    have he := hdec e (by simp)
    unfold queryLoop
    simp only [hnext]
    rw [show json.Unmarshal e.2 Car.zero = ((json.Unmarshal e.2 Car.zero).1, none) by
      rw [← he]]
    simp only []
    rw [ih (fun x hx => hdec x (by simp [hx]))]
    simp

theorem queryLoop_bad (f : Faults) (w : World) (pre post : List (Bytes × Bytes))
    (e : Bytes × Bytes) (err : GoError) (hnext : ∀ i, f.next w i = none)
    (hdec : ∀ x ∈ pre, (json.Unmarshal x.2 Car.zero).2 = none)
    (hbad : (json.Unmarshal e.2 Car.zero).2 = some err) (i : Nat) (found : List Car) :
    queryLoop f w i (pre ++ e :: post) found =
      ([], some (.Errorf "failed to unmarshal car: " err)) := by
  induction pre generalizing i found with
  | nil =>
    simp only [List.nil_append]
    unfold queryLoop
    simp only [hnext]
    rw [show json.Unmarshal e.2 Car.zero = ((json.Unmarshal e.2 Car.zero).1, some err) by
      rw [← hbad]]
  | cons x pre ih =>
    have hx := hdec x (by simp)
    simp only [List.cons_append]
    unfold queryLoop
    simp only [hnext]
    rw [show json.Unmarshal x.2 Car.zero = ((json.Unmarshal x.2 Car.zero).1, none) by
      rw [← hx]]
    simp only []
    exact ih (fun y hy => hdec y (by simp [hy])) _ _

theorem getStateByRange_all (f : Faults) (w : World) (hrange : f.range w = none) :
    GetStateByRange f w [] [] =
      ({ w with calls := w.calls ++ [(.GetStateByRange [] [], true)] }, w.state, none) := by
  unfold GetStateByRange
  simp [hrange]

theorem queryAllCars_ok (f : Faults) (w : World) (hrange : f.range w = none)
    (hnext : ∀ w1 i, f.next w1 i = none)
    (hdec : ∀ e ∈ w.state, (json.Unmarshal e.2 Car.zero).2 = none) :
    (QueryAllCars f w).2 = (w.state.map (fun e => (json.Unmarshal e.2 Car.zero).1), none) := by
  unfold QueryAllCars
  rw [getStateByRange_all f w hrange]
  simp only []
  rw [queryLoop_ok f _ w.state (hnext _) hdec]
  simp

theorem queryAllCars_bad (f : Faults) (w : World) (pre post : List (Bytes × Bytes))
    (e : Bytes × Bytes) (err : GoError) (hrange : f.range w = none)
    (hnext : ∀ w1 i, f.next w1 i = none) (hst : w.state = pre ++ e :: post)
    (hdec : ∀ x ∈ pre, (json.Unmarshal x.2 Car.zero).2 = none)
    (hbad : (json.Unmarshal e.2 Car.zero).2 = some err) :
    (QueryAllCars f w).2 = ([], some (.Errorf "failed to unmarshal car: " err)) := by
  unfold QueryAllCars
  rw [getStateByRange_all f w hrange]
  simp only []
  rw [hst, queryLoop_bad f _ pre post e err (hnext _) hdec hbad]

theorem initLoop_ok (f : Faults) (hput : ∀ w k v, f.put w k v = none) (cs : List Car)
    (w : World) : initLoop f cs w = (seeded w cs, none) := by
  induction cs generalizing w with
  | nil => rfl
  | cons c cs ih =>
    unfold initLoop
    simp only [json.Marshal, PutState, hput]
    rw [ih]
    rfl

theorem initLoop_fail (f : Faults) (pre post : List Car) (c : Car) (text : String) (w : World)
    (hok : ∀ p q ci, pre = p ++ ci :: q →
      f.put (seeded w p) ci.AssetID (json.marshalCar ci) = none)
    (hfail : f.put (seeded w pre) c.AssetID (json.marshalCar c) = some text) :
    initLoop f (pre ++ c :: post) w =
      ({ (seeded w pre) with
          calls := (seeded w pre).calls ++ [(.PutState c.AssetID (json.marshalCar c), false)] },
        some (.Errorf "failed to put car into world state: " (.stub text))) := by
  induction pre generalizing w with
  | nil =>
    simp only [List.nil_append]
    unfold initLoop
    simp only [json.Marshal, PutState]
    have : f.put w c.AssetID (json.marshalCar c) = some text := hfail
    simp only [this]
    rfl
  | cons x pre ih =>
    have hx : f.put w x.AssetID (json.marshalCar x) = none := hok [] pre x rfl
    simp only [List.cons_append]
    unfold initLoop
    simp only [json.Marshal, PutState, hx]
    exact ih (w.put x.AssetID (json.marshalCar x))
      (fun p q ci hp => hok (x :: p) q ci (by rw [hp]; rfl)) hfail

theorem seeded_state (w : World) (cs : List Car) :
    (seeded w cs).state = cs.foldl (fun s c => upsert c.AssetID (json.marshalCar c) s) w.state := by
  induction cs generalizing w with
  | nil => rfl
  | cons c cs ih => exact ih (w.put c.AssetID (json.marshalCar c))

theorem seeded_calls (w : World) (cs : List Car) :
    (seeded w cs).calls =
      w.calls ++ cs.map (fun c => (Call.PutState c.AssetID (json.marshalCar c), true)) := by
  induction cs generalizing w with
  | nil => simp [seeded]
  | cons c cs ih =>
    have := ih (w.put c.AssetID (json.marshalCar c))
    simp only [seeded, List.foldl_cons] at this ⊢
    rw [this]
    simp [World.put]

theorem settled_fold (key value : Bytes) (cs : List Car) (s : List (Bytes × Bytes))
    (h : Settled key value s) (hne : ∀ c ∈ cs, c.AssetID ≠ key) :
    Settled key value (cs.foldl (fun s c => upsert c.AssetID (json.marshalCar c) s) s) := by
  induction cs generalizing s with
  | nil => exact h
  | cons c cs ih =>
    exact ih _ (settled_upsert_other _ _ _ _ _ (hne c (by simp)) h)
      (fun x hx => hne x (by simp [hx]))

theorem settled_seeds (cs : List Car) (hnd : (cs.map Car.AssetID).Nodup)
    (s : List (Bytes × Bytes)) :
    ∀ c ∈ cs, Settled c.AssetID (json.marshalCar c)
      (cs.foldl (fun s c => upsert c.AssetID (json.marshalCar c) s) s) := by
  induction cs generalizing s with
  | nil => simp
  | cons x cs ih =>
    have hnd' := List.nodup_cons.mp hnd
    intro c hc
    rcases List.mem_cons.mp hc with rfl | hc
    · exact settled_fold _ _ cs _ (settled_upsert _ _ _)
        (fun y hy e => hnd'.1 (by rw [← e]; exact List.mem_map_of_mem _ hy))
    · exact ih hnd'.2 _ c hc

theorem fold_settled (cs : List Car) (s : List (Bytes × Bytes))
    (h : ∀ c ∈ cs, Settled c.AssetID (json.marshalCar c) s) :
    cs.foldl (fun s c => upsert c.AssetID (json.marshalCar c) s) s = s := by
  induction cs with
  | nil => rfl
  | cons x cs ih =>
    rw [List.foldl_cons, upsert_settled _ _ _ (h x (by simp))]
    exact ih (fun c hc => h c (by simp [hc]))

theorem seeded_get_other (w : World) (cs : List Car) (key : Bytes)
    (h : key ∉ cs.map Car.AssetID) : (seeded w cs).get key = w.get key := by
  induction cs generalizing w with
  | nil => rfl
  | cons c cs ih =>
    have h1 : c.AssetID ≠ key := fun e => h (by simp [e])
    have h2 : key ∉ cs.map Car.AssetID := fun e => h (by simp at e ⊢; exact Or.inr e)
    have := ih (w.put c.AssetID (json.marshalCar c)) h2
    simp only [seeded, List.foldl_cons] at this ⊢
    rw [this]
    exact getValue_upsert_other _ _ _ _ h1

theorem seeded_get_self (w : World) (cs : List Car) (hnd : (cs.map Car.AssetID).Nodup) :
    ∀ c ∈ cs, (seeded w cs).get c.AssetID = some (json.marshalCar c) := by
  induction cs generalizing w with
  | nil => simp
  | cons x cs ih =>
    have hnd' := List.nodup_cons.mp hnd
    intro c hc
    rcases List.mem_cons.mp hc with rfl | hc
    · have := seeded_get_other (w.put c.AssetID (json.marshalCar c)) cs c.AssetID hnd'.1
      simp only [seeded, List.foldl_cons] at this ⊢
      rw [this]
      exact getValue_upsert_self _ _ _
    · exact ih _ hnd'.2 c hc

/-! ## The codec -/

namespace json

end json

/-! ## What the decoder returns is valid UTF-8 -/

namespace utf8

theorem validLoop_ascii (b : Nat) (s : Bytes) (h : b < 0x80) :
    validLoop 0 (b :: s) = validLoop 0 s := by
  simp only [validLoop]
  rw [if_pos (by unfold RuneSelf; exact h)]

theorem validLoop_rune (chunk : Bytes) (r : Nat) (s : Bytes) (h : IsRune chunk r) :
    validLoop 0 (chunk ++ s) = validLoop 0 s := by
  obtain ⟨hlen, hge, _, hdec⟩ := h
  rcases chunk with _ | ⟨c0, ct⟩
  · simp at hlen
  · have h0 : 0x80 ≤ c0 := hge c0 (by simp)
    have hd := hdec s
    simp only [List.cons_append] at hd ⊢
    simp only [validLoop]
    rw [if_neg (by unfold RuneSelf; omega), hd]
    simp only [List.length_cons] at hlen ⊢
    rw [if_neg (by omega)]
    simp only [Nat.add_sub_cancel]
    exact validLoop_skip ct s

/-- What `EncodeRune` writes is one ASCII byte or the encoding of a rune. -/
theorem encodeRune_cases (r : Nat) :
    (r < 0x80 ∧ EncodeRune r = [r]) ∨ ∃ r2, IsRune (EncodeRune r) r2 := by
  unfold EncodeRune MaxRune
  by_cases h1 : r ≤ 0x7F
  · left
    rw [if_pos h1]
    exact ⟨by omega, rfl⟩
  right
  rw [if_neg h1]
  by_cases h2 : r ≤ 0x7FF
  · rw [if_pos h2]
    rcases first_cases (0xC0 + r / 64) with h | h | ⟨_, _, hf⟩ | h | h | h | h | h | h | h
    all_goals first
      | exact ⟨_, isRune2 _ _ hf (by omega) (by omega) (by omega) (by omega)⟩
      | (exfalso; omega)
  rw [if_neg h2]
  by_cases h3 : r > 0x10FFFF ∨ (0xD800 ≤ r ∧ r ≤ 0xDFFF)
  · rw [if_pos h3]
    rcases first_cases 0xEF with h | h | h | h | ⟨_, _, _, hf⟩ | h | h | h | h | h
    all_goals first
      | exact ⟨_, isRune3 _ _ _ _ _ hf (by omega) (by omega) (by omega) (by omega) (by omega)⟩
      | (exfalso; omega)
  rw [if_neg h3]
  by_cases h4 : r ≤ 0xFFFF
  · rw [if_pos h4]
    rcases first_cases (0xE0 + r / 4096) with h | h | h | ⟨_, hf⟩ | ⟨_, _, _, hf⟩ | ⟨_, hf⟩ |
      h | h | h | h
    all_goals first
      | exact ⟨_, isRune3 _ _ _ _ _ hf (by omega) (by omega) (by omega) (by omega) (by omega)⟩
      | (exfalso; omega)
  · rw [if_neg h4]
    rcases first_cases (0xF0 + r / 262144) with h | h | h | h | h | h | ⟨_, hf⟩ | ⟨_, _, hf⟩ |
      ⟨_, hf⟩ | h
    all_goals first
      | exact ⟨_, isRune4 _ _ _ _ _ _ hf (by omega) (by omega) (by omega) (by omega) (by omega)
          (by omega) (by omega)⟩
      | (exfalso; omega)

theorem validLoop_encodeRune (r : Nat) (s : Bytes) :
    validLoop 0 (EncodeRune r ++ s) = validLoop 0 s := by
  rcases encodeRune_cases r with ⟨h1, h2⟩ | ⟨r2, h⟩
  · rw [h2]
    exact validLoop_ascii r s h1
  · exact validLoop_rune _ r2 s h

end utf8

namespace json

theorem unescapeByte_ascii (e b : Nat) (h : unescapeByte e = some b) : b < 0x80 := by
  unfold unescapeByte at h
  by_cases k1 : e = 0x22 ∨ e = 0x5C ∨ e = 0x2F ∨ e = 0x27
  · rw [if_pos k1] at h
    simp only [Option.some.injEq] at h
    omega
  rw [if_neg k1] at h
  by_cases k2 : e = 0x62
  · rw [if_pos k2] at h; simp only [Option.some.injEq] at h; omega
  rw [if_neg k2] at h
  by_cases k3 : e = 0x66
  · rw [if_pos k3] at h; simp only [Option.some.injEq] at h; omega
  rw [if_neg k3] at h
  by_cases k4 : e = 0x6E
  · rw [if_pos k4] at h; simp only [Option.some.injEq] at h; omega
  rw [if_neg k4] at h
  by_cases k5 : e = 0x72
  · rw [if_pos k5] at h; simp only [Option.some.injEq] at h; omega
  rw [if_neg k5] at h
  by_cases k6 : e = 0x74
  · rw [if_pos k6] at h; simp only [Option.some.injEq] at h; omega
  rw [if_neg k6] at h
  exact absurd h (by simp)

theorem map_some {α : Type} (o : Option Bytes) (g : Bytes → α) (out : α)
    (h : o.map g = some out) : ∃ t, o = some t ∧ out = g t := by
  cases o with
  | none => simp at h
  | some t => exact ⟨t, rfl, by simpa using h.symm⟩

/-- What `unquoteBytes` returns is valid UTF-8. -/
theorem unquoteLoop_valid (acc : Bytes) : ∀ (k : Nat) (out : Bytes),
    unquoteLoop k acc = some out → utf8.validLoop 0 out = true := by
  induction acc with
  | nil =>
    intro k out h
    simp only [unquoteLoop, Option.some.injEq] at h
    subst h
    rfl
  | cons c rest ih =>
    intro k out h
    cases k with
    | succ k => exact ih k out h
    | zero =>
      unfold unquoteLoop at h
      by_cases h1 : c = 0x5C
      · rw [if_pos h1] at h
        rcases rest with _ | ⟨e, r2⟩
        · simp at h
        simp only [] at h
        by_cases hu : e = 0x75
        · rw [if_pos hu] at h
          cases hg : getu4 (c :: e :: r2) with
          | none => rw [hg] at h; simp at h
          | some rr =>
            rw [hg] at h
            simp only [] at h
            by_cases hs : utf16.IsSurrogate rr = true
            · rw [if_pos hs] at h
              by_cases hp : utf16.DecodeRune rr (getu4 (List.drop 5 (e :: r2))) ≠ 0xFFFD
              · rw [if_pos hp] at h
                obtain ⟨t, ht, rfl⟩ := map_some _ _ _ h
                rw [utf8.validLoop_encodeRune]
                exact ih _ _ ht
              · rw [if_neg hp] at h
                obtain ⟨t, ht, rfl⟩ := map_some _ _ _ h
                rw [utf8.validLoop_encodeRune]
                exact ih _ _ ht
            · rw [if_neg hs] at h
              obtain ⟨t, ht, rfl⟩ := map_some _ _ _ h
              rw [utf8.validLoop_encodeRune]
              exact ih _ _ ht
        · rw [if_neg hu] at h
          cases hb : unescapeByte e with
          | none => rw [hb] at h; simp at h
          | some b =>
            rw [hb] at h
            simp only [] at h
            obtain ⟨t, ht, rfl⟩ := map_some _ _ _ h
            rw [utf8.validLoop_ascii b t (unescapeByte_ascii e b hb)]
            exact ih _ _ ht
      · rw [if_neg h1] at h
        by_cases h2 : c = 0x22 ∨ c < 0x20
        · rw [if_pos h2] at h; simp at h
        rw [if_neg h2] at h
        by_cases h3 : c < utf8.RuneSelf
        · rw [if_pos h3] at h
          obtain ⟨t, ht, rfl⟩ := map_some _ _ _ h
          rw [utf8.validLoop_ascii c t h3]
          exact ih _ _ ht
        · rw [if_neg h3] at h
          obtain ⟨t, ht, rfl⟩ := map_some _ _ _ h
          rw [utf8.validLoop_encodeRune]
          exact ih _ _ ht

theorem setField_valid (car : Car) (i : Nat) (v : Bytes) (hc : validCar car)
    (hv : utf8.ValidString v = true) : validCar (setField car i v) := by
  obtain ⟨h1, h2, h3, h4, h5⟩ := hc
  unfold setField
  split
  · exact ⟨hv, h2, h3, h4, h5⟩
  · exact ⟨h1, hv, h3, h4, h5⟩
  · exact ⟨h1, h2, hv, h4, h5⟩
  · exact ⟨h1, h2, h3, hv, h5⟩
  · exact ⟨h1, h2, h3, h4, hv⟩

theorem storeMember_valid (acc : Car × Option GoError) (m : Member) (h : validCar acc.1) :
    validCar (storeMember acc m).1 := by
  obtain ⟨rk, kind, body⟩ := m
  rcases hk : unquoteBytes rk with _ | key
  · simpa [storeMember, hk] using h
  · rcases hf : findField key with _ | i
    · simpa [storeMember, hk, hf] using h
    · rcases hb : unquoteBytes body with _ | v
      · cases kind <;> cases he : acc.2 <;> simpa [storeMember, hk, hf, hb, he] using h
      · have hv : utf8.ValidString v = true := unquoteLoop_valid body 0 v hb
        cases kind <;> cases he : acc.2 <;>
          first
            | simpa [storeMember, hk, hf, hb, he] using h
            | simpa [storeMember, hk, hf, hb, he] using setField_valid acc.1 i v h hv

/-- Whatever the data, `Unmarshal` into a `Car` of valid UTF-8 strings leaves a
`Car` of valid UTF-8 strings. -/
theorem unmarshal_valid (data : Bytes) (car : Car) (h : validCar car) :
    validCar (Unmarshal data car).1 := by
  unfold Unmarshal
  split
  · split
    · have : ∀ (ms : List Member) (acc : Car × Option GoError), validCar acc.1 →
          validCar (ms.foldl storeMember acc).1 := by
        intro ms
        induction ms with
        | nil => exact fun acc h => h
        | cons m ms ih => exact fun acc h => ih _ (storeMember_valid acc m h)
      exact this _ _ h
    · exact h
    · exact h
  · exact h

end json

/-! # Decoding against the grammar -/

/-! ## JSON text is what the scanner accepts -/

namespace json

theorem run_cons (s : scanner) (c : Nat) (t : Bytes) : s.run (c :: t) = (s.next c).1.run t := rfl

theorem inner_run (b : Nat) (t : Bytes) : ∀ (s s2 : scanner), Inner b s t s2 → s.run t = s2 := by
  induction t with
  | nil => intro s s2 h; exact h
  | cons c t ih =>
    intro s s2 h
    simp only [Inner] at h
    rw [run_cons]
    exact ih _ _ h.2

theorem run_err (t : Bytes) : ∀ s : scanner, s.err = true → (s.run t).err = true := by
  induction t with
  | nil => intro s h; exact h
  | cons c t ih => intro s h; exact ih _ (next_err s c h)

theorem err_of_run (s : scanner) (t : Bytes) (h : (s.run t).err = false) : s.err = false := by
  cases he : s.err with
  | false => rfl
  | true => rw [run_err t s he] at h; exact absurd h (by simp)

theorem ws_append (a b : Bytes) (ha : rfc.Ws a) (hb : rfc.Ws b) : rfc.Ws (a ++ b) := by
  intro x hx
  rcases List.mem_append.mp hx with h | h
  · exact ha x h
  · exact hb x h

end json

namespace utf8

end utf8

namespace json

/-! ## Keys and field names -/

end json

/-! ## C1 -/

/-- C1 (counterexample): a `Car` whose field `Make` is the single byte 0xFF, not
valid UTF-8, does not survive encoding and decoding: `Marshal` writes the
escape for U+FFFD in its place and `Unmarshal` returns the three bytes of
U+FFFD. -/
theorem roundtrip_invalid_utf8 :
    json.Unmarshal (json.Marshal ⟨ascii "CAR9", [0xFF], [], [], []⟩).1 Car.zero =
        (⟨ascii "CAR9", [0xEF, 0xBF, 0xBD], [], [], []⟩, none) ∧
      json.Unmarshal (json.Marshal ⟨ascii "CAR9", [0xFF], [], [], []⟩).1 Car.zero ≠
        (⟨ascii "CAR9", [0xFF], [], [], []⟩, none) := by
  decide

/-- C1 (amended): for every `Car` whose five fields are valid UTF-8, encoding
succeeds and decoding the bytes into a zero `Car` succeeds and yields a `Car`
equal to it in all five fields. -/
theorem marshal_unmarshal_roundtrip (r : Car) (h1 : utf8.ValidString r.AssetID = true)
    (h2 : utf8.ValidString r.Make = true) (h3 : utf8.ValidString r.Model = true)
    (h4 : utf8.ValidString r.Color = true) (h5 : utf8.ValidString r.Owner = true) :
    (json.Marshal r).2 = none ∧ json.Unmarshal (json.Marshal r).1 Car.zero = (r, none) :=
  ⟨rfl, json.unmarshal_marshalCar r Car.zero h1 h2 h3 h4 h5⟩

/-- C1 (witness): the round trip at a record with an accented letter, a quote,
a line break and an HTML character. -/
theorem marshal_unmarshal_roundtrip_witness :
    (json.Marshal ⟨ascii "CAR7", [0x43, 0xC3, 0xA9], ascii "a\"b", ascii "x\ny", ascii "<T>"⟩).2
        = none ∧
      json.Unmarshal
          (json.Marshal ⟨ascii "CAR7", [0x43, 0xC3, 0xA9], ascii "a\"b", ascii "x\ny", ascii "<T>"⟩).1
          Car.zero =
        (⟨ascii "CAR7", [0x43, 0xC3, 0xA9], ascii "a\"b", ascii "x\ny", ascii "<T>"⟩, none) :=
  marshal_unmarshal_roundtrip
    ⟨ascii "CAR7", [0x43, 0xC3, 0xA9], ascii "a\"b", ascii "x\ny", ascii "<T>"⟩
    (by decide) (by decide) (by decide) (by decide) (by decide)

/-- The round trip of C1 holds for no other records: a `Car` that comes back
from `Marshal` and `Unmarshal` unchanged has five fields of valid UTF-8. -/
theorem roundtrip_only_valid_utf8 (r : Car)
    (h : json.Unmarshal (json.Marshal r).1 Car.zero = (r, none)) : json.validCar r := by
  have := json.unmarshal_valid (json.Marshal r).1 Car.zero ⟨rfl, rfl, rfl, rfl, rfl⟩
  rw [h] at this
  exact this

/-! ## C9 -/

theorem cars_valid : ∀ c ∈ cars, utf8.ValidString c.AssetID = true ∧
    utf8.ValidString c.Make = true ∧ utf8.ValidString c.Model = true ∧
    utf8.ValidString c.Color = true ∧ utf8.ValidString c.Owner = true := by
  decide

theorem cars_nodup : (cars.map Car.AssetID).Nodup := by decide

theorem unmarshal_seed (c : Car) (hc : c ∈ cars) :
    json.Unmarshal (json.marshalCar c) Car.zero = (c, none) := by
  obtain ⟨h1, h2, h3, h4, h5⟩ := cars_valid c hc
  exact json.unmarshal_marshalCar c Car.zero h1 h2 h3 h4 h5

theorem seeded_empty_state (calls : List (Call × Bool)) :
    (seeded ⟨[], calls⟩ cars).state = cars.map (fun c => (c.AssetID, json.marshalCar c)) := by
  rw [seeded_state]
  show cars.foldl (fun s c => upsert c.AssetID (json.marshalCar c) s) [] = _
  decide

theorem initLoop_none (f : Faults) (cs : List Car) (w : World)
    (h : (initLoop f cs w).2 = none) : (initLoop f cs w).1.state = (seeded w cs).state := by
  induction cs generalizing w with
  | nil => rfl
  | cons c cs ih =>
    unfold initLoop at h ⊢
    simp only [json.Marshal, PutState] at h ⊢
    cases hp : f.put w c.AssetID (json.marshalCar c) with
    | some text => simp [hp] at h
    | none =>
      simp only [hp] at h ⊢
      exact ih _ h

/-! ## C2 -/

/-- C2 (counterexample): on a ledger whose writes never fail but whose range
scan does not open, `InitLedger` on the empty store succeeds and `QueryAllCars`
then returns the error of the scan and no records. -/
theorem query_after_seed_scan_down :
    (∀ w k v, scanDown.put w k v = none) ∧
      (InitLedger scanDown World.empty).2 = none ∧
      (QueryAllCars scanDown (InitLedger scanDown World.empty).1).2 =
        ([], some (.Errorf "failed to get all cars: " (.stub "ledger unavailable"))) :=
  ⟨fun _ _ _ => rfl, by decide, by decide⟩

/-- C2 (amended): starting from an empty store whose `Put` never fails and
whose range scan reports no error, `InitLedger` succeeds and `QueryAllCars`
then returns success with exactly the six seed records, field for field and in
the order CAR0 to CAR5. -/
theorem initLedger_then_query (f : Faults) (calls : List (Call × Bool))
    (hput : ∀ w k v, f.put w k v = none) (hrange : ∀ w, f.range w = none)
    (hnext : ∀ w i, f.next w i = none) :
    (InitLedger f ⟨[], calls⟩).2 = none ∧
      (QueryAllCars f (InitLedger f ⟨[], calls⟩).1).2 = (cars, none) := by
  unfold InitLedger
  rw [initLoop_ok f hput]
  refine ⟨rfl, ?_⟩
  have hst := seeded_empty_state calls
  rw [queryAllCars_ok f _ (hrange _) hnext, hst]
  · simp only [List.map_map]
    have : ∀ c ∈ cars, ((fun e : Bytes × Bytes => (json.Unmarshal e.2 Car.zero).1) ∘
        (fun c : Car => (c.AssetID, json.marshalCar c))) c = c := by
      intro c hc
      simp [unmarshal_seed c hc]
    rw [List.map_congr_left this]
    simp
  · intro e he
    rw [hst] at he
    obtain ⟨c, hc, rfl⟩ := List.mem_map.mp he
    simp [unmarshal_seed c hc]

/-- C2 (witness): the seeding and the query on a ledger on which nothing
fails. -/
theorem initLedger_then_query_witness :
    (InitLedger noFaults ⟨[], []⟩).2 = none ∧
      (QueryAllCars noFaults (InitLedger noFaults ⟨[], []⟩).1).2 = (cars, none) :=
  initLedger_then_query noFaults [] (fun _ _ _ => rfl) (fun _ => rfl) (fun _ _ => rfl)

/-! ## C3 -/

/-- C3: when every stored value decodes and the range scan yields the entries
in ascending key order without error, `QueryAllCars` returns success with one
record per entry, the decoding of the entry's value, in the order of the
entries, which is the ascending order of their keys.  On the empty store it
returns the empty sequence and no error, and after a successful `InitLedger` on
an empty store the records are the six seeds in the order CAR0 to CAR5. -/
theorem queryAllCars_returns_all (f : Faults) (hrange : ∀ w, f.range w = none)
    (hnext : ∀ w i, f.next w i = none) :
    (∀ w : World, ascending w.state →
      (∀ e ∈ w.state, (json.Unmarshal e.2 Car.zero).2 = none) →
      (QueryAllCars f w).2 = (w.state.map (fun e => (json.Unmarshal e.2 Car.zero).1), none) ∧
        (w.state.map Prod.fst).Pairwise (fun a b => keyLt a b = true) ∧
        (w.state.map Prod.fst).Nodup) ∧
      (∀ calls, (QueryAllCars f ⟨[], calls⟩).2 = ([], none)) ∧
      (∀ calls, (InitLedger f ⟨[], calls⟩).2 = none →
        (QueryAllCars f (InitLedger f ⟨[], calls⟩).1).2 = (cars, none) ∧
        cars.map Car.AssetID =
          [ascii "CAR0", ascii "CAR1", ascii "CAR2", ascii "CAR3", ascii "CAR4", ascii "CAR5"]) := by
  refine ⟨?_, ?_, ?_⟩
  · intro w hasc hdec
    have hp : (w.state.map Prod.fst).Pairwise (fun a b => keyLt a b = true) := by
      rw [List.pairwise_map]
      exact hasc
    refine ⟨queryAllCars_ok f w (hrange w) hnext hdec, hp, ?_⟩
    exact hp.imp (fun h => keyLt_ne _ _ h)
  · intro calls
    rw [queryAllCars_ok f _ (hrange _) hnext (by simp)]
    rfl
  · intro calls hinit
    refine ⟨?_, by decide⟩
    have hst : (InitLedger f ⟨[], calls⟩).1.state =
        cars.map (fun c => (c.AssetID, json.marshalCar c)) := by
      unfold InitLedger at hinit ⊢
      rw [initLoop_none f cars _ hinit, seeded_empty_state]
    rw [queryAllCars_ok f _ (hrange _) hnext, hst]
    · simp only [List.map_map]
      have : ∀ c ∈ cars, ((fun e : Bytes × Bytes => (json.Unmarshal e.2 Car.zero).1) ∘
          (fun c : Car => (c.AssetID, json.marshalCar c))) c = c := by
        intro c hc
        simp [unmarshal_seed c hc]
      rw [List.map_congr_left this]
      simp
    · intro e he
      rw [hst] at he
      obtain ⟨c, hc, rfl⟩ := List.mem_map.mp he
      simp [unmarshal_seed c hc]

/-- C3 (witness): the query on a store of two records, on the empty store and
after seeding, on a ledger on which nothing fails. -/
theorem queryAllCars_returns_all_witness :
    (QueryAllCars noFaults
          ⟨[(ascii "A", ascii "\x7b\"make\":\"Ford\"\x7d"), (ascii "B", ascii "null")], []⟩).2 =
        ([⟨[], ascii "Ford", [], [], []⟩, Car.zero], none) ∧
      (QueryAllCars noFaults ⟨[], []⟩).2 = ([], none) ∧
      (QueryAllCars noFaults (InitLedger noFaults ⟨[], []⟩).1).2 = (cars, none) :=
  ⟨(((queryAllCars_returns_all noFaults (fun _ => rfl) (fun _ _ => rfl)).1
      ⟨[(ascii "A", ascii "\x7b\"make\":\"Ford\"\x7d"), (ascii "B", ascii "null")], []⟩
      (by simp [ascending]; decide) (by decide)).1).trans (by decide),
    (queryAllCars_returns_all noFaults (fun _ => rfl) (fun _ _ => rfl)).2.1 [],
    ((queryAllCars_returns_all noFaults (fun _ => rfl) (fun _ _ => rfl)).2.2 [] (by decide)).1⟩

theorem createCar_ok (f : Faults) (w : World) (a m mo c o : Bytes)
    (h : (CreateCar f w a m mo c o).2 = none) :
    (CreateCar f w a m mo c o).1.state = upsert a (json.marshalCar ⟨a, m, mo, c, o⟩) w.state := by
  unfold CreateCar at h ⊢
  simp only [json.Marshal, PutState, SetEvent] at h ⊢
  cases hp : f.put w a (json.marshalCar ⟨a, m, mo, c, o⟩) with
  | some text => simp [hp] at h
  | none =>
    simp only [hp] at h ⊢
    cases he : f.event (w.put a (json.marshalCar ⟨a, m, mo, c, o⟩)) (ascii "CarCreated") a with
    | some text => simp [he] at h
    | none => rfl

theorem createCar_put (f : Faults) (w : World) (a m mo c o : Bytes)
    (h : f.put w a (json.marshalCar ⟨a, m, mo, c, o⟩) = none) :
    (CreateCar f w a m mo c o).1.state = upsert a (json.marshalCar ⟨a, m, mo, c, o⟩) w.state ∧
      (CreateCar f w a m mo c o).2 =
        (f.event (w.put a (json.marshalCar ⟨a, m, mo, c, o⟩)) (ascii "CarCreated") a).map
          (fun text => GoError.Errorf "failed to emit event: " (.stub text)) := by
  unfold CreateCar
  simp only [json.Marshal, PutState, SetEvent, h]
  cases he : f.event (w.put a (json.marshalCar ⟨a, m, mo, c, o⟩)) (ascii "CarCreated") a with
  | some text => exact ⟨rfl, rfl⟩
  | none => exact ⟨rfl, rfl⟩

theorem filter_one (pre post : List (Bytes × Bytes)) (key value : Bytes) (car : Car)
    (hcar : json.Unmarshal value Car.zero = (car, none)) (hid : car.AssetID = key)
    (hpre : ∀ e ∈ pre, (json.Unmarshal e.2 Car.zero).1.AssetID ≠ key)
    (hpost : ∀ e ∈ post, (json.Unmarshal e.2 Car.zero).1.AssetID ≠ key) :
    ((pre ++ (key, value) :: post).map (fun e => (json.Unmarshal e.2 Car.zero).1)).filter
      (fun r => decide (r.AssetID = key)) = [car] := by
  rw [List.map_append, List.filter_append, List.map_cons, List.filter_cons]
  have h1 : (pre.map (fun e => (json.Unmarshal e.2 Car.zero).1)).filter
      (fun r => decide (r.AssetID = key)) = [] := by
    rw [List.filter_eq_nil_iff]
    intro r hr
    obtain ⟨e, he, rfl⟩ := List.mem_map.mp hr
    simpa using hpre e he
  have h2 : (post.map (fun e => (json.Unmarshal e.2 Car.zero).1)).filter
      (fun r => decide (r.AssetID = key)) = [] := by
    rw [List.filter_eq_nil_iff]
    intro r hr
    obtain ⟨e, he, rfl⟩ := List.mem_map.mp hr
    simpa using hpost e he
  rw [h1, h2]
  simp [hcar, hid]

/-! ## C4 -/

/-- C4 (counterexample): the ways the claim fails.  A field that is not valid
UTF-8 comes back changed: after `CreateCar` with `Make` the byte 0xFF the query
returns U+FFFD for it.  A store that holds under the key `A` a record whose
`assetID` is `CARX` returns two records with that `assetID` after
`CreateCar("CARX", ..)`.  Such a store arises from the empty one by `CreateCar`
alone: after `CreateCar` with the `assetID` 0xFF and then with the `assetID`
U+FFFD, both successful, the query returns two records with the `assetID`
U+FFFD.  When the range scan does not open, the query after a successful
`CreateCar` returns an error and no record.  And when the ledger rejects the
write of the second `CreateCar`, that call fails and the query still returns
the values of the first call. -/
theorem createCar_then_query_fails :
    (QueryAllCars noFaults
        (CreateCar noFaults World.empty (ascii "CARX") [0xFF] (ascii "Prius") (ascii "blue")
          (ascii "Tomoko")).1).2 =
      ([⟨ascii "CARX", [0xEF, 0xBF, 0xBD], ascii "Prius", ascii "blue", ascii "Tomoko"⟩], none) ∧
    (QueryAllCars noFaults
        (CreateCar noFaults
          ⟨[(ascii "A", json.marshalCar ⟨ascii "CARX", ascii "Ford", [], [], []⟩)], []⟩
          (ascii "CARX") (ascii "Toyota") (ascii "Prius") (ascii "blue") (ascii "Tomoko")).1).2 =
      ([⟨ascii "CARX", ascii "Ford", [], [], []⟩,
        ⟨ascii "CARX", ascii "Toyota", ascii "Prius", ascii "blue", ascii "Tomoko"⟩], none) ∧
    (QueryAllCars noFaults
        (CreateCar noFaults
          (CreateCar noFaults World.empty [0xFF] (ascii "Ford") [] [] []).1
          [0xEF, 0xBF, 0xBD] (ascii "Toyota") [] [] []).1).2 =
      ([⟨[0xEF, 0xBF, 0xBD], ascii "Toyota", [], [], []⟩,
        ⟨[0xEF, 0xBF, 0xBD], ascii "Ford", [], [], []⟩], none) ∧
    ((CreateCar scanDown World.empty (ascii "CARX") (ascii "Toyota") (ascii "Prius") (ascii "blue")
        (ascii "Tomoko")).2 = none ∧
      (QueryAllCars scanDown
        (CreateCar scanDown World.empty (ascii "CARX") (ascii "Toyota") (ascii "Prius")
          (ascii "blue") (ascii "Tomoko")).1).2 =
      ([], some (.Errorf "failed to get all cars: " (.stub "ledger unavailable")))) ∧
    ((CreateCar putOnce World.empty (ascii "CARX") (ascii "Toyota") (ascii "Prius") (ascii "blue")
        (ascii "Tomoko")).2 = none ∧
      (CreateCar putOnce
        (CreateCar putOnce World.empty (ascii "CARX") (ascii "Toyota") (ascii "Prius") (ascii "blue")
          (ascii "Tomoko")).1
        (ascii "CARX") (ascii "Ford") (ascii "Mustang") (ascii "red") (ascii "Brad")).2 =
        some (.Errorf "failed to put car into world state: " (.stub "write rejected")) ∧
      (QueryAllCars putOnce
        (CreateCar putOnce
          (CreateCar putOnce World.empty (ascii "CARX") (ascii "Toyota") (ascii "Prius")
            (ascii "blue") (ascii "Tomoko")).1
          (ascii "CARX") (ascii "Ford") (ascii "Mustang") (ascii "red") (ascii "Brad")).1).2 =
        ([⟨ascii "CARX", ascii "Toyota", ascii "Prius", ascii "blue", ascii "Tomoko"⟩], none)) := by
  decide

/-- C4 (amended): let the store hold its entries in ascending key order, every
stored value decode, no value stored under another key decode to a record with
the given `assetID`, the five arguments be valid UTF-8 and the range scan
report no error.  After a successful `CreateCar`, `QueryAllCars` succeeds and
returns exactly one record with the given `assetID`, carrying the given values.
When `CreateCar` is then called again with the same `assetID` and any other
valid values and the ledger accepts its write, the call returns no error
unless the ledger rejects the event, which is then the error returned: there
is no check for an existing record.  Whether or not the event was accepted,
`QueryAllCars` then succeeds and returns exactly one record with that
`assetID`, carrying the values of the second call. -/
theorem createCar_then_query (f : Faults) (w : World) (a m mo c o : Bytes)
    (hasc : ascending w.state)
    (hdec : ∀ e ∈ w.state, (json.Unmarshal e.2 Car.zero).2 = none)
    (hother : ∀ e ∈ w.state, e.1 ≠ a → (json.Unmarshal e.2 Car.zero).1.AssetID ≠ a)
    (ha : utf8.ValidString a = true) (hm : utf8.ValidString m = true)
    (hmo : utf8.ValidString mo = true) (hc : utf8.ValidString c = true)
    (ho : utf8.ValidString o = true)
    (hrange : ∀ w, f.range w = none) (hnext : ∀ w i, f.next w i = none)
    (h1 : (CreateCar f w a m mo c o).2 = none) :
    ((QueryAllCars f (CreateCar f w a m mo c o).1).2.2 = none ∧
      (QueryAllCars f (CreateCar f w a m mo c o).1).2.1.filter (fun r => decide (r.AssetID = a)) =
        [⟨a, m, mo, c, o⟩]) ∧
    ∀ m2 mo2 c2 o2 : Bytes, utf8.ValidString m2 = true → utf8.ValidString mo2 = true →
      utf8.ValidString c2 = true → utf8.ValidString o2 = true →
      f.put (CreateCar f w a m mo c o).1 a (json.marshalCar ⟨a, m2, mo2, c2, o2⟩) = none →
      (CreateCar f (CreateCar f w a m mo c o).1 a m2 mo2 c2 o2).2 =
          (f.event ((CreateCar f w a m mo c o).1.put a (json.marshalCar ⟨a, m2, mo2, c2, o2⟩))
            (ascii "CarCreated") a).map
            (fun text => GoError.Errorf "failed to emit event: " (.stub text)) ∧
        (QueryAllCars f (CreateCar f (CreateCar f w a m mo c o).1 a m2 mo2 c2 o2).1).2.2 = none ∧
        (QueryAllCars f (CreateCar f (CreateCar f w a m mo c o).1 a m2 mo2 c2 o2).1).2.1.filter
            (fun r => decide (r.AssetID = a)) = [⟨a, m2, mo2, c2, o2⟩] := by
  obtain ⟨pre, post, hsplit, hlt, hpre, hpost⟩ :=
    upsert_split a (json.marshalCar ⟨a, m, mo, c, o⟩) w.state hasc
  have hs1 := createCar_ok f w a m mo c o h1
  rw [hsplit] at hs1
  have hu1 := json.unmarshal_marshalCar ⟨a, m, mo, c, o⟩ Car.zero ha hm hmo hc ho
  have hd1 : ∀ e ∈ (CreateCar f w a m mo c o).1.state, (json.Unmarshal e.2 Car.zero).2 = none := by
    intro e he
    rw [hs1] at he
    rcases List.mem_append.mp he with he | he
    · exact hdec e (hpre e he).1
    · rcases List.mem_cons.mp he with rfl | he
      · simp [hu1]
      · exact hdec e (hpost e he).1
  have hq1 := queryAllCars_ok f _ (hrange _) hnext hd1
  refine ⟨?_, ?_⟩
  · rw [hq1, hs1]
    exact ⟨rfl, filter_one pre post a _ _ hu1 rfl
      (fun e he => hother e (hpre e he).1 (hpre e he).2)
      (fun e he => hother e (hpost e he).1 (hpost e he).2)⟩
  · intro m2 mo2 c2 o2 hm2 hmo2 hc2 ho2 hput
    obtain ⟨hs2, herr⟩ := createCar_put f _ a m2 mo2 c2 o2 hput
    rw [hs1, upsert_replace _ _ _ _ _ hlt] at hs2
    have hu2 := json.unmarshal_marshalCar ⟨a, m2, mo2, c2, o2⟩ Car.zero ha hm2 hmo2 hc2 ho2
    have hd2 : ∀ e ∈ (CreateCar f (CreateCar f w a m mo c o).1 a m2 mo2 c2 o2).1.state,
        (json.Unmarshal e.2 Car.zero).2 = none := by
      intro e he
      rw [hs2] at he
      rcases List.mem_append.mp he with he | he
      · exact hdec e (hpre e he).1
      · rcases List.mem_cons.mp he with rfl | he
        · simp [hu2]
        · exact hdec e (hpost e he).1
    have hq2 := queryAllCars_ok f _ (hrange _) hnext hd2
    refine ⟨herr, ?_⟩
    rw [hq2, hs2]
    exact ⟨rfl, filter_one pre post a _ _ hu2 rfl
      (fun e he => hother e (hpre e he).1 (hpre e he).2)
      (fun e he => hother e (hpost e he).1 (hpost e he).2)⟩

/-- C4 (witness): the two calls of `CreateCar` for `CARX` on the seeded store,
on a ledger on which nothing fails. -/
theorem createCar_then_query_witness :
    ((QueryAllCars noFaults
        (CreateCar noFaults (seeded World.empty cars) (ascii "CARX") (ascii "Toyota")
          (ascii "Prius") (ascii "blue") (ascii "Tomoko")).1).2.2 = none ∧
      (QueryAllCars noFaults
        (CreateCar noFaults (seeded World.empty cars) (ascii "CARX") (ascii "Toyota")
          (ascii "Prius") (ascii "blue") (ascii "Tomoko")).1).2.1.filter
          (fun r => decide (r.AssetID = ascii "CARX")) =
        [⟨ascii "CARX", ascii "Toyota", ascii "Prius", ascii "blue", ascii "Tomoko"⟩]) ∧
    ((CreateCar noFaults
          (CreateCar noFaults (seeded World.empty cars) (ascii "CARX") (ascii "Toyota")
            (ascii "Prius") (ascii "blue") (ascii "Tomoko")).1
          (ascii "CARX") (ascii "Ford") (ascii "Mustang") (ascii "red") (ascii "Brad")).2 = none ∧
      (QueryAllCars noFaults
        (CreateCar noFaults
          (CreateCar noFaults (seeded World.empty cars) (ascii "CARX") (ascii "Toyota")
            (ascii "Prius") (ascii "blue") (ascii "Tomoko")).1
          (ascii "CARX") (ascii "Ford") (ascii "Mustang") (ascii "red") (ascii "Brad")).1).2.2 = none ∧
      (QueryAllCars noFaults
        (CreateCar noFaults
          (CreateCar noFaults (seeded World.empty cars) (ascii "CARX") (ascii "Toyota")
            (ascii "Prius") (ascii "blue") (ascii "Tomoko")).1
          (ascii "CARX") (ascii "Ford") (ascii "Mustang") (ascii "red") (ascii "Brad")).1).2.1.filter
          (fun r => decide (r.AssetID = ascii "CARX")) =
        [⟨ascii "CARX", ascii "Ford", ascii "Mustang", ascii "red", ascii "Brad"⟩]) :=
  ⟨(createCar_then_query noFaults (seeded World.empty cars) (ascii "CARX") (ascii "Toyota")
      (ascii "Prius") (ascii "blue") (ascii "Tomoko")
      (by unfold ascending; decide) (by decide) (by decide)
      (by decide) (by decide) (by decide) (by decide) (by decide)
      (fun _ => rfl) (fun _ _ => rfl) (by decide)).1,
    (createCar_then_query noFaults (seeded World.empty cars) (ascii "CARX") (ascii "Toyota")
      (ascii "Prius") (ascii "blue") (ascii "Tomoko")
      (by unfold ascending; decide) (by decide) (by decide)
      (by decide) (by decide) (by decide) (by decide) (by decide)
      (fun _ => rfl) (fun _ _ => rfl) (by decide)).2 (ascii "Ford") (ascii "Mustang") (ascii "red")
      (ascii "Brad") (by decide) (by decide) (by decide) (by decide) rfl⟩

/-! ## C5 -/

/-- C5: on a store whose `Put` never fails, `InitLedger` succeeds, a second
`InitLedger` right after it succeeds as well, and the world state after the
second run is exactly the world state after the first. -/
theorem initLedger_idempotent (f : Faults) (w : World) (hput : ∀ w k v, f.put w k v = none) :
    (InitLedger f w).2 = none ∧ (InitLedger f (InitLedger f w).1).2 = none ∧
      (InitLedger f (InitLedger f w).1).1.state = (InitLedger f w).1.state := by
  unfold InitLedger
  rw [initLoop_ok f hput, initLoop_ok f hput]
  refine ⟨rfl, rfl, ?_⟩
  show (seeded (seeded w cars) cars).state = (seeded w cars).state
  rw [seeded_state (seeded w cars), seeded_state w]
  exact fold_settled cars _ (settled_seeds cars cars_nodup w.state)

/-- C5 (witness): two runs of `InitLedger` on a store that holds another record
and an old value for CAR3. -/
theorem initLedger_idempotent_witness :
    (InitLedger noFaults ⟨[(ascii "CAR3", ascii "old"), (ascii "ZED", ascii "null")], []⟩).2 = none ∧
      (InitLedger noFaults
        (InitLedger noFaults ⟨[(ascii "CAR3", ascii "old"), (ascii "ZED", ascii "null")], []⟩).1).2 =
        none ∧
      (InitLedger noFaults
        (InitLedger noFaults ⟨[(ascii "CAR3", ascii "old"), (ascii "ZED", ascii "null")], []⟩).1).1.state =
        (InitLedger noFaults ⟨[(ascii "CAR3", ascii "old"), (ascii "ZED", ascii "null")], []⟩).1.state :=
  initLedger_idempotent noFaults ⟨[(ascii "CAR3", ascii "old"), (ascii "ZED", ascii "null")], []⟩
    (fun _ _ _ => rfl)

/-! ## C6 -/

theorem errorf_text_ne (a b : String) :
    "failed to emit event: " ++ a ≠ "failed to put car into world state: " ++ b := by
  intro h
  have := congrArg String.data h
  simp at this

/-- C6: when the `Put` succeeds and the `Emit` fails, `CreateCar` returns the
error of the `Emit` wrapped as "failed to emit event", and the store afterwards
holds the encoded record under `assetID`.  Any call of `CreateCar` whose `Put`
fails returns the error of the `Put` wrapped as "failed to put car into world
state"; the two errors differ, and so do their texts, whatever the texts of the
underlying errors. -/
theorem createCar_emit_error (f : Faults) (w : World) (a m mo c o : Bytes) (text : String)
    (hput : f.put w a (json.marshalCar ⟨a, m, mo, c, o⟩) = none)
    (hemit : f.event (w.put a (json.marshalCar ⟨a, m, mo, c, o⟩)) (ascii "CarCreated") a =
      some text) :
    (CreateCar f w a m mo c o).2 = some (.Errorf "failed to emit event: " (.stub text)) ∧
      (CreateCar f w a m mo c o).1.get a = some (json.marshalCar ⟨a, m, mo, c, o⟩) ∧
      ∀ (f2 : Faults) (w2 : World) (a2 m2 mo2 c2 o2 : Bytes) (text2 : String),
        f2.put w2 a2 (json.marshalCar ⟨a2, m2, mo2, c2, o2⟩) = some text2 →
        (CreateCar f2 w2 a2 m2 mo2 c2 o2).2 =
            some (.Errorf "failed to put car into world state: " (.stub text2)) ∧
          (CreateCar f w a m mo c o).2 ≠ (CreateCar f2 w2 a2 m2 mo2 c2 o2).2 ∧
          ∀ (jsonText : JsonError → String) (e1 e2 : GoError),
            (CreateCar f w a m mo c o).2 = some e1 →
            (CreateCar f2 w2 a2 m2 mo2 c2 o2).2 = some e2 →
            e1.Error jsonText ≠ e2.Error jsonText := by
  have h1 : CreateCar f w a m mo c o =
      ({ (w.put a (json.marshalCar ⟨a, m, mo, c, o⟩)) with
          calls := (w.put a (json.marshalCar ⟨a, m, mo, c, o⟩)).calls ++
            [(.SetEvent (ascii "CarCreated") a, false)] },
        some (.Errorf "failed to emit event: " (.stub text))) := by
    unfold CreateCar
    simp only [json.Marshal, PutState, SetEvent, hput, hemit]
  refine ⟨by rw [h1], ?_, ?_⟩
  · rw [h1]
    exact getValue_upsert_self _ _ _
  · intro f2 w2 a2 m2 mo2 c2 o2 text2 hput2
    have h2 : (CreateCar f2 w2 a2 m2 mo2 c2 o2).2 =
        some (.Errorf "failed to put car into world state: " (.stub text2)) := by
      unfold CreateCar
      simp only [json.Marshal, PutState, hput2]
    refine ⟨h2, ?_, ?_⟩
    · rw [h1, h2]
      simp
    · intro jt e1 e2 he1 he2
      rw [h1] at he1
      rw [h2] at he2
      simp only [Option.some.injEq] at he1 he2
      subst he1
      subst he2
      exact errorf_text_ne _ _

/-- C6 (witness): the failed event after the write of CARX, against the failed
write of CARX. -/
theorem createCar_emit_error_witness :
    (CreateCar eventDown World.empty (ascii "CARX") (ascii "Toyota") (ascii "Prius") (ascii "blue")
        (ascii "Tomoko")).2 = some (.Errorf "failed to emit event: " (.stub "event rejected")) ∧
      (CreateCar eventDown World.empty (ascii "CARX") (ascii "Toyota") (ascii "Prius")
        (ascii "blue") (ascii "Tomoko")).1.get (ascii "CARX") =
        some (json.marshalCar
          ⟨ascii "CARX", ascii "Toyota", ascii "Prius", ascii "blue", ascii "Tomoko"⟩) ∧
      (CreateCar (putDownOn (ascii "CARX")) World.empty (ascii "CARX") (ascii "Toyota")
        (ascii "Prius") (ascii "blue") (ascii "Tomoko")).2 =
        some (.Errorf "failed to put car into world state: " (.stub "write rejected")) :=
  ⟨(createCar_emit_error eventDown World.empty (ascii "CARX") (ascii "Toyota") (ascii "Prius")
      (ascii "blue") (ascii "Tomoko") "event rejected" rfl rfl).1,
    (createCar_emit_error eventDown World.empty (ascii "CARX") (ascii "Toyota") (ascii "Prius")
      (ascii "blue") (ascii "Tomoko") "event rejected" rfl rfl).2.1,
    ((createCar_emit_error eventDown World.empty (ascii "CARX") (ascii "Toyota") (ascii "Prius")
      (ascii "blue") (ascii "Tomoko") "event rejected" rfl rfl).2.2
      (putDownOn (ascii "CARX")) World.empty (ascii "CARX") (ascii "Toyota") (ascii "Prius")
      (ascii "blue") (ascii "Tomoko") "write rejected" (by decide)).1⟩

/-! ## C7 -/

/-- C7 (counterexample): the store holds one value that does not decode, and the
range scan does not open.  `QueryAllCars` returns the error of the scan, which
is not the decode error of that value. -/
theorem query_undecodable_scan_down :
    (json.Unmarshal (ascii "\x7b\"assetID\":") Car.zero).2 = some (.json .SyntaxError) ∧
      (QueryAllCars scanDown ⟨[(ascii "CAR0", ascii "\x7b\"assetID\":")], []⟩).2 =
        ([], some (.Errorf "failed to get all cars: " (.stub "ledger unavailable"))) ∧
      (QueryAllCars scanDown ⟨[(ascii "CAR0", ascii "\x7b\"assetID\":")], []⟩).2.2 ≠
        some (.Errorf "failed to unmarshal car: " (.json .SyntaxError)) := by
  decide

theorem first_bad (l : List (Bytes × Bytes))
    (h : ∃ e ∈ l, (json.Unmarshal e.2 Car.zero).2 ≠ none) :
    ∃ pre e post err, l = pre ++ e :: post ∧
      (∀ x ∈ pre, (json.Unmarshal x.2 Car.zero).2 = none) ∧
      (json.Unmarshal e.2 Car.zero).2 = some err ∧ firstDecodeError l = some (e.1, err) := by
  induction l with
  | nil => simp at h
  | cons x l ih =>
    cases hx : (json.Unmarshal x.2 Car.zero).2 with
    | some err => exact ⟨[], x, l, err, rfl, by simp, hx, by simp [firstDecodeError, hx]⟩
    | none =>
      obtain ⟨e, he, hbad⟩ := h
      rcases List.mem_cons.mp he with rfl | he
      · exact absurd hx hbad
      · obtain ⟨pre, e', post, err, hl, hpre, herr, hfirst⟩ := ih ⟨e, he, hbad⟩
        refine ⟨x :: pre, e', post, err, by rw [hl]; rfl, ?_, herr, ?_⟩
        · intro y hy
          rcases List.mem_cons.mp hy with rfl | hy
          · exact hx
          · exact hpre y hy
        · simp [firstDecodeError, hx, hfirst]

/-- C7 (amended): when at least one stored value does not decode and the range
scan reports no error, `QueryAllCars` returns no records and the decode error
of the first such entry in the order of the scan, wrapped as "failed to
unmarshal car"; every entry before it decodes, and when the scan is in
ascending key order every entry before it has a smaller key. -/
theorem queryAllCars_fails_fast (f : Faults) (w : World)
    (hbad : ∃ e ∈ w.state, (json.Unmarshal e.2 Car.zero).2 ≠ none)
    (hrange : ∀ w, f.range w = none) (hnext : ∀ w i, f.next w i = none) :
    (QueryAllCars f w).2 =
        ([], (firstDecodeError w.state).map (fun p => .Errorf "failed to unmarshal car: " p.2)) ∧
      ∃ pre e post err, w.state = pre ++ e :: post ∧
        (∀ x ∈ pre, (json.Unmarshal x.2 Car.zero).2 = none) ∧
        (json.Unmarshal e.2 Car.zero).2 = some err ∧
        firstDecodeError w.state = some (e.1, err) ∧
        (ascending w.state → ∀ x ∈ pre, keyLt x.1 e.1 = true) := by
  obtain ⟨pre, e, post, err, hl, hpre, herr, hfirst⟩ := first_bad w.state hbad
  refine ⟨?_, pre, e, post, err, hl, hpre, herr, hfirst, ?_⟩
  · rw [queryAllCars_bad f w pre post e err (hrange w) hnext hl hpre herr, hfirst]
    rfl
  · intro hasc x hx
    rw [hl] at hasc
    exact (List.pairwise_append.mp hasc).2.2 x hx e (by simp)

/-- C7 (witness): the query on a store whose second of three values is a
truncated record. -/
theorem queryAllCars_fails_fast_witness :
    (QueryAllCars noFaults
      ⟨[(ascii "CAR0", json.marshalCar ⟨ascii "CAR0", [], [], [], []⟩),
        (ascii "CAR1", ascii "\x7b\"assetID\":"),
        (ascii "CAR2", ascii "12")], []⟩).2 =
      ([], some (.Errorf "failed to unmarshal car: " (.json .SyntaxError))) :=
  (queryAllCars_fails_fast noFaults
    ⟨[(ascii "CAR0", json.marshalCar ⟨ascii "CAR0", [], [], [], []⟩),
      (ascii "CAR1", ascii "\x7b\"assetID\":"),
      (ascii "CAR2", ascii "12")], []⟩
    ⟨(ascii "CAR1", ascii "\x7b\"assetID\":"), by decide, by decide⟩ (fun _ => rfl)
    (fun _ _ => rfl)).1.trans (by decide)

theorem take_split {α : Type} (l p q : List α) (x : α) (k : Nat) (h : l.take k = p ++ x :: q) :
    p.length < k ∧ l[p.length]? = some x ∧ l.take p.length = p := by
  have hlen : (l.take k).length = p.length + 1 + q.length := by
    rw [h]; simp; omega
  have hk : p.length < k := by
    have := List.length_take_le k l
    omega
  have hl : l = (p ++ x :: q) ++ l.drop k := by
    rw [← h, List.take_append_drop]
  refine ⟨hk, ?_, ?_⟩
  · rw [hl, List.append_assoc, List.getElem?_append_right (Nat.le_refl _)]
    simp
  · rw [hl]
    simp

/-! ## C8 -/

/-- C8: let the `Put` of the seed record with index `k` be the first `Put` of
`InitLedger` to fail.  Then `InitLedger` returns that error wrapped as "failed
to put car into world state", the store afterwards holds the encoded seed
records before index `k` under their keys, the calls made on the stub are the
`k` successful writes and the failed one and nothing after it, and every key
that is not one of the first `k` seed keys holds what it held before. -/
theorem initLedger_stops_at_first_failure (f : Faults) (w : World) (k : Nat) (c : Car)
    (text : String) (hk : cars[k]? = some c)
    (hok : ∀ i ci, i < k → cars[i]? = some ci →
      f.put (seeded w (cars.take i)) ci.AssetID (json.marshalCar ci) = none)
    (hfail : f.put (seeded w (cars.take k)) c.AssetID (json.marshalCar c) = some text) :
    (InitLedger f w).2 = some (.Errorf "failed to put car into world state: " (.stub text)) ∧
      (∀ ci ∈ cars.take k, (InitLedger f w).1.get ci.AssetID = some (json.marshalCar ci)) ∧
      (InitLedger f w).1.calls =
        w.calls ++ (cars.take k).map (fun ci => (Call.PutState ci.AssetID (json.marshalCar ci), true))
          ++ [(Call.PutState c.AssetID (json.marshalCar c), false)] ∧
      (∀ key, key ∉ (cars.take k).map Car.AssetID → (InitLedger f w).1.get key = w.get key) := by
  have hklt : k < cars.length := by
    rcases Nat.lt_or_ge k cars.length with h | h
    · exact h
    · rw [List.getElem?_eq_none h] at hk
      exact absurd hk (by simp)
  have hcars : cars = cars.take k ++ c :: cars.drop (k + 1) := by
    have h1 : cars.drop k = c :: cars.drop (k + 1) := by
      rw [List.drop_eq_getElem_cons hklt]
      have : cars[k]? = some cars[k] := List.getElem?_eq_getElem hklt
      rw [this] at hk
      simp only [Option.some.injEq] at hk
      rw [hk]
    rw [← h1, List.take_append_drop]
  have hrun : InitLedger f w =
      ({ (seeded w (cars.take k)) with
          calls := (seeded w (cars.take k)).calls ++
            [(.PutState c.AssetID (json.marshalCar c), false)] },
        some (.Errorf "failed to put car into world state: " (.stub text))) := by
    have : InitLedger f w = initLoop f (cars.take k ++ c :: cars.drop (k + 1)) w := by
      rw [← hcars]; rfl
    rw [this]
    apply initLoop_fail f _ _ c text w _ hfail
    intro p q ci hp
    obtain ⟨h1, h2, h3⟩ := take_split cars p q ci k hp
    have := hok p.length ci h1 h2
    rw [h3] at this
    exact this
  have hnd : ((cars.take k).map Car.AssetID).Nodup := by
    have := cars_nodup
    rw [← List.take_append_drop k cars, List.map_append] at this
    exact (List.nodup_append.mp this).1
  refine ⟨by rw [hrun], ?_, ?_, ?_⟩
  · intro ci hci
    rw [hrun]
    exact seeded_get_self w (cars.take k) hnd ci hci
  · rw [hrun]
    simp only []
    rw [seeded_calls]
  · intro key hkey
    rw [hrun]
    exact seeded_get_other w (cars.take k) key hkey

/-- C8 (witness): the run of `InitLedger` on a ledger that rejects the write of
CAR3, over a store that holds old values for CAR1 and CAR4. -/
theorem initLedger_stops_at_first_failure_witness :
    (InitLedger (putDownOn (ascii "CAR3"))
        ⟨[(ascii "CAR1", ascii "old"), (ascii "CAR4", ascii "kept")], []⟩).2 =
        some (.Errorf "failed to put car into world state: " (.stub "write rejected")) ∧
      (InitLedger (putDownOn (ascii "CAR3"))
        ⟨[(ascii "CAR1", ascii "old"), (ascii "CAR4", ascii "kept")], []⟩).1.get (ascii "CAR4") =
        some (ascii "kept") ∧
      (InitLedger (putDownOn (ascii "CAR3"))
        ⟨[(ascii "CAR1", ascii "old"), (ascii "CAR4", ascii "kept")], []⟩).1.calls.length = 4 :=
  ⟨(initLedger_stops_at_first_failure (putDownOn (ascii "CAR3"))
      ⟨[(ascii "CAR1", ascii "old"), (ascii "CAR4", ascii "kept")], []⟩ 3
      ⟨ascii "CAR3", ascii "Volkswagen", ascii "Passat", ascii "yellow", ascii "Max"⟩
      "write rejected" (by decide)
      (fun i ci hi hci => by
        have h3 : i = 0 ∨ i = 1 ∨ i = 2 := by omega
        rcases h3 with rfl | rfl | rfl <;>
          (simp only [cars, List.getElem?_cons_zero, List.getElem?_cons_succ,
            Option.some.injEq] at hci; subst hci; decide))
      (by decide)).1,
    ((initLedger_stops_at_first_failure (putDownOn (ascii "CAR3"))
      ⟨[(ascii "CAR1", ascii "old"), (ascii "CAR4", ascii "kept")], []⟩ 3
      ⟨ascii "CAR3", ascii "Volkswagen", ascii "Passat", ascii "yellow", ascii "Max"⟩
      "write rejected" (by decide)
      (fun i ci hi hci => by
        have h3 : i = 0 ∨ i = 1 ∨ i = 2 := by omega
        rcases h3 with rfl | rfl | rfl <;>
          (simp only [cars, List.getElem?_cons_zero, List.getElem?_cons_succ,
            Option.some.injEq] at hci; subst hci; decide))
      (by decide)).2.2.2 (ascii "CAR4") (by decide)).trans (by decide),
    by decide⟩

/-! ## C10 -/

/-- C10: when `Put` and `Emit` both succeed, `CreateCar` returns success and
makes exactly two calls on the stub, first the `PutState` of the encoded record
under `assetID` and then one `SetEvent` with the name "CarCreated" and the bytes
of `assetID` as payload.  When the `Put` fails the failed `PutState` is the only
call: no event is emitted. -/
theorem createCar_event (f : Faults) (w : World) (a m mo c o : Bytes) :
    (f.put w a (json.marshalCar ⟨a, m, mo, c, o⟩) = none →
      f.event (w.put a (json.marshalCar ⟨a, m, mo, c, o⟩)) (ascii "CarCreated") a = none →
      (CreateCar f w a m mo c o).2 = none ∧
        (CreateCar f w a m mo c o).1.calls =
          w.calls ++ [(.PutState a (json.marshalCar ⟨a, m, mo, c, o⟩), true),
            (.SetEvent (ascii "CarCreated") a, true)]) ∧
      (∀ text, f.put w a (json.marshalCar ⟨a, m, mo, c, o⟩) = some text →
        (CreateCar f w a m mo c o).2 =
            some (.Errorf "failed to put car into world state: " (.stub text)) ∧
          (CreateCar f w a m mo c o).1.calls =
            w.calls ++ [(.PutState a (json.marshalCar ⟨a, m, mo, c, o⟩), false)]) := by
  refine ⟨?_, ?_⟩
  · intro hput hemit
    unfold CreateCar
    simp only [json.Marshal, PutState, SetEvent, hput, hemit]
    simp [World.put]
  · intro text hput
    unfold CreateCar
    simp only [json.Marshal, PutState, hput]
    simp

/-- C10 (witness): the calls of `CreateCar` for CARX on a ledger on which
nothing fails, and on one that rejects the write. -/
theorem createCar_event_witness :
    (CreateCar noFaults World.empty (ascii "CARX") (ascii "Toyota") (ascii "Prius") (ascii "blue")
        (ascii "Tomoko")).1.calls =
        [(.PutState (ascii "CARX") (json.marshalCar
            ⟨ascii "CARX", ascii "Toyota", ascii "Prius", ascii "blue", ascii "Tomoko"⟩), true),
          (.SetEvent (ascii "CarCreated") (ascii "CARX"), true)] ∧
      (CreateCar (putDownOn (ascii "CARX")) World.empty (ascii "CARX") (ascii "Toyota")
        (ascii "Prius") (ascii "blue") (ascii "Tomoko")).1.calls =
        [(.PutState (ascii "CARX") (json.marshalCar
            ⟨ascii "CARX", ascii "Toyota", ascii "Prius", ascii "blue", ascii "Tomoko"⟩), false)] :=
  ⟨((createCar_event noFaults World.empty (ascii "CARX") (ascii "Toyota") (ascii "Prius")
      (ascii "blue") (ascii "Tomoko")).1 rfl rfl).2,
    ((createCar_event (putDownOn (ascii "CARX")) World.empty (ascii "CARX") (ascii "Toyota")
      (ascii "Prius") (ascii "blue") (ascii "Tomoko")).2 "write rejected" (by decide)).2⟩
